import Mathlib

/-!
Verification of core CodeSwitch VM routines against their natural-language
specification.  Each C++ routine under scrutiny is shallowly embedded as an
executable Lean definition operating on lists of bytes, natural-number words
(with explicit reductions modulo 2^64 where the C++ type would wrap), and
explicit error results (`Except`) where the C++ code throws or would trip an
assertion.  Theorems about these definitions settle the specification claims.
-/

namespace CodeSwitch

/-! ## Little-endian byte encoding

`writeBin`/`readBin` in common/common.h store and load fixed-width integers
by reinterpreting the byte pointer; on the little-endian targets the code
supports this is exactly a little-endian byte encoding.  Bytes are modelled
as natural numbers; all writers only produce values below 256. -/

/-- Little-endian encoding of `v` in `w` bytes (the value is truncated to
`w` bytes, as a C++ store through a `w`-byte integer pointer would be). -/
def writeLE : Nat → Nat → List Nat
  | 0, _ => []
  | w + 1, v => v % 256 :: writeLE w (v / 256)

/-- Little-endian decoding of the first `w` bytes of a list (missing bytes
read as zero). -/
def readLEAux : Nat → List Nat → Nat
  | 0, _ => 0
  | _ + 1, [] => 0
  | w + 1, b :: rest => b + 256 * readLEAux w rest

/-- Little-endian decoding of `w` bytes of `l` starting at byte offset `off`. -/
def readLE (w : Nat) (l : List Nat) (off : Nat) : Nat :=
  readLEAux w (l.drop off)

theorem writeLE_length (w v : Nat) : (writeLE w v).length = w := by
  induction w generalizing v with
  | zero => rfl
  | succ k ih => simp [writeLE, ih]

theorem readLEAux_writeLE (w v : Nat) (rest : List Nat) (h : v < 256 ^ w) :
    readLEAux w (writeLE w v ++ rest) = v := by
  induction w generalizing v with
  | zero =>
    simp only [Nat.pow_zero, Nat.lt_one_iff] at h
    simp [writeLE, readLEAux, h]
  | succ k ih =>
    have hdiv : v / 256 < 256 ^ k := by
      rw [Nat.div_lt_iff_lt_mul (by norm_num)]
      calc v < 256 ^ (k + 1) := h
      _ = 256 ^ k * 256 := by ring
    simp only [writeLE, List.cons_append, readLEAux, List.append_eq]
    rw [ih (v / 256) hdiv]
    omega

theorem readLEAux_lt (w : Nat) (l : List Nat) (h : ∀ b ∈ l, b < 256) :
    readLEAux w l < 256 ^ w := by
  induction w generalizing l with
  | zero => simp [readLEAux]
  | succ k ih =>
    cases l with
    | nil =>
      simp only [readLEAux]
      positivity
    | cons b rest =>
      have hb : b < 256 := h b (by simp)
      have hr := ih rest (fun x hx => h x (by simp [hx]))
      have hone : 1 ≤ 256 ^ k := Nat.one_le_pow k 256 (by norm_num)
      simp only [readLEAux, Nat.pow_succ]
      calc b + 256 * readLEAux k rest < 256 + 256 * readLEAux k rest := by omega
      _ ≤ 256 ^ k * 256 := by omega

theorem drop_append_length {α : Type} (a b : List α) (k : Nat) :
    (a ++ b).drop (a.length + k) = b.drop k := by
  induction a with
  | nil => simp
  | cons x xs ih => simp [Nat.succ_add, ih]

theorem readLE_append_right (a b : List Nat) (w k : Nat) :
    readLE w (a ++ b) (a.length + k) = readLE w b k := by
  simp [readLE, drop_append_length]

theorem readLE_append_exact (a b : List Nat) (w : Nat) :
    readLE w (a ++ b) a.length = readLEAux w b := by
  have h := readLE_append_right a b w 0
  simp only [Nat.add_zero] at h
  rw [h]
  simp [readLE]

/-- Reading entirely inside a prefix ignores whatever follows it. -/
theorem readLEAux_prefix (w : Nat) (x rest : List Nat) (h : w ≤ x.length) :
    readLEAux w (x ++ rest) = readLEAux w x := by
  induction w generalizing x with
  | zero => simp [readLEAux]
  | succ k ih =>
    cases x with
    | nil => simp at h
    | cons b xs =>
      simp only [List.cons_append, readLEAux, List.append_eq]
      rw [ih xs (by simpa using h)]

/-! ## C8: Stack::check (src/memory/stack.h, lines 54-59)

The source computes `top = sp - n` in unsigned pointer arithmetic and throws
`StackOverflowError` when `top < limit_ || top >= sp`. -/

/-- Model of `Stack::check`: returns `true` exactly when the C++ code throws
`StackOverflowError`.  `sp`, `limit` and `n` are 64-bit unsigned values, and
`sp - n` is computed modulo 2^64 as in the source. -/
def stackCheckRaises (sp limit n : Nat) : Bool :=
  let top := (sp + (2 ^ 64 - n % 2 ^ 64)) % 2 ^ 64
  decide (top < limit) || decide (top ≥ sp)

/-- Counterexample to C8 as stated: with `sp = 100`, `limit = 10`, `n = 0`
we have `sp - n = 100 ≥ limit`, so the claim says `check` returns normally,
but the source raises `StackOverflowError` because `top >= sp`. -/
theorem stackCheck_n_zero_counterexample :
    stackCheckRaises 100 10 0 = true ∧ ¬ (100 - 0 < 10) := by
  constructor
  · decide
  · decide

/-- C8 (amended): `Stack::check(n)` raises `StackOverflowError` exactly when
`n = 0`, or `n > sp` (the unsigned subtraction wraps), or `sp - n < limit`. -/
theorem stackCheck_raises_iff (sp limit n : Nat)
    (hsp : sp < 2 ^ 64) (hn : n < 2 ^ 64) :
    stackCheckRaises sp limit n = true ↔ (n = 0 ∨ sp < n ∨ sp - n < limit) := by
  unfold stackCheckRaises
  have hmod : n % 2 ^ 64 = n := Nat.mod_eq_of_lt hn
  rw [hmod]
  rcases le_or_lt n sp with hle | hlt
  · have htop : (sp + (2 ^ 64 - n)) % 2 ^ 64 = sp - n := by
      have h1 : sp + (2 ^ 64 - n) = (sp - n) + 2 ^ 64 := by omega
      rw [h1, Nat.add_mod_right, Nat.mod_eq_of_lt (by omega)]
    rw [htop]
    simp only [Bool.or_eq_true, decide_eq_true_eq, ge_iff_le]
    omega
  · have htop : (sp + (2 ^ 64 - n)) % 2 ^ 64 = sp + (2 ^ 64 - n) := by
      rw [Nat.mod_eq_of_lt (by omega)]
    rw [htop]
    simp only [Bool.or_eq_true, decide_eq_true_eq, ge_iff_le]
    omega

/-- Witness for the amended C8 statement at `sp = 100`, `limit = 10`,
`n = 50`: no overflow is raised there. -/
theorem stackCheck_raises_iff_witness :
    100 < 2 ^ 64 ∧ 50 < 2 ^ 64 ∧
      (stackCheckRaises 100 10 50 = true ↔ (50 = 0 ∨ 100 < 50 ∨ 100 - 50 < 10)) :=
  ⟨by norm_num, by norm_num, stackCheck_raises_iff 100 10 50 (by norm_num) (by norm_num)⟩

/-! ## C7: HandleStorage::accept (handle.cpp)

The source visits every slot whose low bit is clear; there is no check that
the slot value is non-null. -/

/-- Model of `HandleStorage::accept`: the list of slot values passed to the
visitor callback, in iteration order. -/
def handleStorageAccept (slots : List Nat) : List Nat :=
  slots.foldr (fun slot acc => if slot &&& 1 == 0 then slot :: acc else acc) []

/-- C7 fails on the code: a slot holding null (value 0) has low bit 0, so the
acceptor visits it, although the claim (and spec §4.5) says a null slot is
never visited. -/
theorem handleAccept_visits_null_slot : handleStorageAccept [0] = [0] := by
  decide

/-! ## C1: the LT/LE/GT/GE case of Function::validate
(package/function.cpp, GE/GT/LE/LT case)

`checkType(inst, types, want, i, nops)` checks that at least `nops` operands
are on the abstract stack and that operand `i` (counting from the top) has
type `want`.  In the comparison case the source calls
`checkType(..., int64Type, 0, 2)` twice, so operand 1 is never checked. -/

/-- Abstract operand types of the verifier (`Type::Kind`). -/
inductive TypeK where
  | unit
  | bool
  | int64
deriving DecidableEq, Repr

/-- Model of the verifier helper `checkType`: operand `i` from the top of
`types` (the last list element is the top of the abstract stack, as with the
C++ `std::vector` back) must exist and have type `want`. -/
def checkTypeOk (types : List TypeK) (want : TypeK) (i nops : Nat) :
    Except String Unit :=
  if types.length < nops then
    Except.error "instruction needs operands on the stack"
  else if types.getD (types.length - i - 1) TypeK.unit ≠ want then
    Except.error "operand type mismatch"
  else
    Except.ok ()

/-- Model of the `Op::GE | Op::GT | Op::LE | Op::LT` case of
`Function::validate`: two `checkType` calls, both with operand index 0
exactly as in the source, then pop two types and push bool. -/
def validateCmpCase (types : List TypeK) : Except String (List TypeK) :=
  match checkTypeOk types TypeK.int64 0 2 with
  | Except.error e => Except.error e
  | Except.ok () =>
    match checkTypeOk types TypeK.int64 0 2 with
    | Except.error e => Except.error e
    | Except.ok () =>
      Except.ok (types.dropLast.dropLast ++ [TypeK.bool])

/-- C1 fails on the code: with abstract stack `[bool, int64]` (top = int64,
second operand = bool) an LT/LE/GT/GE instruction passes validation, because
the source checks operand 0 twice instead of operands 0 and 1.  The claim
says validation must raise `ValidateError` here. -/
theorem validateCmp_accepts_bool_second_operand :
    validateCmpCase [TypeK.bool, TypeK.int64] = Except.ok [TypeK.bool] := by
  rfl

/-! ## Alignment helper (common/common.h)

`align(n, alignment) = (n + alignment - 1) & ~(alignment - 1)` on 64-bit
words; the complement of `alignment - 1` in 64 bits is `2^64 - alignment`. -/

/-- Model of `align` from common/common.h for 64-bit words. -/
def alignW (n alignment : Nat) : Nat :=
  (n + alignment - 1) &&& (2 ^ 64 - alignment)

/-! ## C10: SafepointBuilder::build and Safepoints::isPointer
(package/function.cpp)

`build` sorts the recorded entries by instruction offset and serializes each
as a 4-byte offset followed by a bitmap whose bit `slot` is set with
`p[4 + slot/8] |= 1 << slot%8`.  `isPointer` reads back
`entry->bits[slot/8] & (slot%8)` — masking with the bit index instead of
`1 << bitIndex`. -/

/-- Bytes per safepoint entry: `sizeof(uint32_t) + align(align(frameSize, 8) / 8, 4)`
(`Safepoints::bytesPerEntry`). -/
def spBytesPerEntry (frameSize : Nat) : Nat :=
  4 + alignW (alignW frameSize 8 / 8) 4

/-- One recorded entry of `SafepointBuilder`: an instruction offset plus the
slots passed to `setPointer` while it was the latest entry. -/
structure SPEntry where
  instOffset : Nat
  slots : List Nat
deriving DecidableEq, Repr

/-- Insertion of an entry into a list sorted by `instOffset` (model of the
`std::sort` call in `SafepointBuilder::build`). -/
def spInsertSorted (e : SPEntry) : List SPEntry → List SPEntry
  | [] => [e]
  | x :: xs =>
    if e.instOffset < x.instOffset then e :: x :: xs else x :: spInsertSorted e xs

/-- Sorting the recorded entries by `instOffset`. -/
def spSortEntries : List SPEntry → List SPEntry
  | [] => []
  | x :: xs => spInsertSorted x (spSortEntries xs)

/-- Setting bit `slot % 8` in byte `4 + slot / 8` of an entry buffer, as the
write `p[sizeof(uint32_t) + byteIndex] |= 1 << bitIndex` does. -/
def spSetSlotBit (entry : List Nat) (slot : Nat) : List Nat :=
  let byteIndex := slot / 8
  let bitIndex := slot % 8
  entry.set (4 + byteIndex) (entry.getD (4 + byteIndex) 0 ||| (1 <<< bitIndex))

/-- Serialized bytes of one safepoint entry. -/
def spEntryBytes (frameSize : Nat) (e : SPEntry) : List Nat :=
  e.slots.foldl spSetSlotBit
    (writeLE 4 e.instOffset ++ List.replicate (spBytesPerEntry frameSize - 4) 0)

/-- Model of `SafepointBuilder::build`: sort entries by offset, then emit
each entry into the data buffer. -/
def spBuild (entries : List SPEntry) (frameSize : Nat) : List Nat :=
  ((spSortEntries entries).map (spEntryBytes frameSize)).foldr List.append []

/-- Model of `Safepoints::isPointer`.  Exactly as in the source, the byte is
masked with `bitIndex` (not with `1 <<< bitIndex`). -/
def spIsPointer (data : List Nat) (frameSize index slot : Nat) : Bool :=
  let bpe := spBytesPerEntry frameSize
  let byteIndex := slot / 8
  let bitIndex := slot % 8
  (data.getD (index * bpe + 4 + byteIndex) 0) &&& bitIndex != 0

/-- C10 fails on the code: record one entry at instruction offset 0 with
slot 0 marked as a pointer, and build with frame size 1.  Then `isPointer`
answers `false` for the recorded slot 0 and `true` for the unrecorded
slot 1, the opposite of the claimed round-trip, because the mask uses the
bit index instead of a shifted bit. -/
theorem spIsPointer_roundtrip_fails :
    spIsPointer (spBuild [⟨0, [0]⟩] 1) 1 0 0 = false ∧
      spIsPointer (spBuild [⟨0, [0]⟩] 1) 1 0 1 = true := by
  constructor
  · rfl
  · rfl

/-! ## C4: Safepoints::lookup (package/function.cpp)

The source runs a binary search with `begin`/`end` indices but computes
`mid = (end - begin) / 2` (instead of `begin + (end - begin) / 2`) and uses
`mid` as an absolute entry index.  The loop is modelled with explicit fuel:
one unit of fuel per loop iteration, so a result of `none` for every fuel
value means the C++ loop never returns. -/

/-- One iteration of the `Safepoints::lookup` binary-search loop, with fuel.
`data` is the raw safepoint byte array; each entry starts with a 4-byte
little-endian instruction offset. -/
def spLookupLoop (data : List Nat) (bpe target : Nat) :
    Nat → Nat → Nat → Option Nat
  | 0, _, _ => none
  | fuel + 1, b, e =>
    if b < e then
      let mid := (e - b) / 2
      let entryOffset := readLE 4 data (mid * bpe)
      if entryOffset = target then some mid
      else if entryOffset < target then spLookupLoop data bpe target fuel (mid + 1) e
      else spLookupLoop data bpe target fuel b mid
    else none

/-- Model of `Safepoints::lookup`: search the whole table
(`end = data.length / bytesPerEntry`).  Falling out of the loop hits
`UNREACHABLE()`, which is also modelled as `none`. -/
def spLookup (data : List Nat) (frameSize target fuel : Nat) : Option Nat :=
  spLookupLoop data (spBytesPerEntry frameSize) target fuel 0
    (data.length / spBytesPerEntry frameSize)

/-- A sorted three-entry safepoint table with instruction offsets 10, 20, 30
and frame size 1 (8 bytes per entry: 4 offset bytes plus 4 bitmap bytes). -/
def spLookupData : List Nat :=
  writeLE 4 10 ++ List.replicate 4 0 ++
    (writeLE 4 20 ++ List.replicate 4 0 ++ (writeLE 4 30 ++ List.replicate 4 0))

/-- The two states of the cycle the lookup loop enters for target offset 30:
from `(begin, end) = (1, 3)` it moves to `(2, 3)` and back, forever. -/
theorem spLookupLoop_cycle (fuel : Nat) :
    spLookupLoop spLookupData 8 30 fuel 1 3 = none ∧
      spLookupLoop spLookupData 8 30 fuel 2 3 = none := by
  induction fuel with
  | zero => exact ⟨rfl, rfl⟩
  | succ k ih =>
    refine ⟨?_, ?_⟩
    · have h : spLookupLoop spLookupData 8 30 (k + 1) 1 3
          = spLookupLoop spLookupData 8 30 k 2 3 := rfl
      rw [h]
      exact ih.2
    · have h : spLookupLoop spLookupData 8 30 (k + 1) 2 3
          = spLookupLoop spLookupData 8 30 k 1 3 := rfl
      rw [h]
      exact ih.1

/-- C4 fails on the code: on the sorted table with entry offsets 10, 20, 30,
looking up the present offset 30 never terminates — for every number of loop
iterations the search is still running (the mid-point computation
`(end - begin) / 2` forgets to add `begin`, so the states `(1,3)` and
`(2,3)` alternate forever). -/
theorem spLookup_present_offset_never_returns (fuel : Nat) :
    spLookup spLookupData 1 30 fuel = none := by
  cases fuel with
  | zero => rfl
  | succ k =>
    have h : spLookup spLookupData 1 30 (k + 1)
        = spLookupLoop spLookupData 8 30 k 2 3 := rfl
    rw [h]
    exact (spLookupLoop_cycle k).2

/-! ## C2: the interpreter dispatch loop (interpreter.cpp, `interpret`)

Model of a single iteration of the dispatch loop for the opcodes that fall
through to `ip = ip->next()`.  The four control-flow opcodes B, BIF, CALL
and RET manipulate `ip` and the frame chain directly and `continue` the
loop; the claim explicitly excludes them, and the model reports them as a
distinguished error instead of giving them semantics.

The value stack is the part of the frame below `fp`: the head of `stack` is
the most recently pushed word (`*sp`), and `args` are the argument words
above the frame record (`ap[i]`). -/

/-- The opcode set (`Op` in package/inst.h), in declaration order, so the
encoded byte values are 0 (NOP) through 32 (NE). -/
inductive OpC where
  | NOP | SYS | RET | CALL | B | BIF
  | LOADARG | LOADLOCAL | STOREARG | STORELOCAL
  | UNIT | TRUE | FALSE | INT64
  | NEG | NOT | ADD | SUB | MUL | DIV | MOD
  | SHL | SHR | ASR | AND | OR | XOR
  | LT | LE | GT | GE | EQ | NE
deriving DecidableEq, Repr

/-- Decoding of an opcode byte, following the `Op : uint8_t` enum values. -/
def decodeOp : Nat → Option OpC
  | 0 => some OpC.NOP
  | 1 => some OpC.SYS
  | 2 => some OpC.RET
  | 3 => some OpC.CALL
  | 4 => some OpC.B
  | 5 => some OpC.BIF
  | 6 => some OpC.LOADARG
  | 7 => some OpC.LOADLOCAL
  | 8 => some OpC.STOREARG
  | 9 => some OpC.STORELOCAL
  | 10 => some OpC.UNIT
  | 11 => some OpC.TRUE
  | 12 => some OpC.FALSE
  | 13 => some OpC.INT64
  | 14 => some OpC.NEG
  | 15 => some OpC.NOT
  | 16 => some OpC.ADD
  | 17 => some OpC.SUB
  | 18 => some OpC.MUL
  | 19 => some OpC.DIV
  | 20 => some OpC.MOD
  | 21 => some OpC.SHL
  | 22 => some OpC.SHR
  | 23 => some OpC.ASR
  | 24 => some OpC.AND
  | 25 => some OpC.OR
  | 26 => some OpC.XOR
  | 27 => some OpC.LT
  | 28 => some OpC.LE
  | 29 => some OpC.GT
  | 30 => some OpC.GE
  | 31 => some OpC.EQ
  | 32 => some OpC.NE
  | _ => none

/-- Model of `Inst::size` (package/inst.h). -/
def instSize : OpC → Nat
  | OpC.ADD | OpC.AND | OpC.ASR | OpC.DIV | OpC.EQ | OpC.FALSE | OpC.GE
  | OpC.GT | OpC.LE | OpC.LT | OpC.MOD | OpC.MUL | OpC.NE | OpC.NEG
  | OpC.NOP | OpC.NOT | OpC.OR | OpC.RET | OpC.SHL | OpC.SHR | OpC.SUB
  | OpC.TRUE | OpC.UNIT | OpC.XOR => 1
  | OpC.SYS => 2
  | OpC.LOADARG | OpC.LOADLOCAL | OpC.STOREARG | OpC.STORELOCAL => 3
  | OpC.B | OpC.BIF | OpC.CALL => 5
  | OpC.INT64 => 9

/-- Two-complement reading of a 64-bit word as `int64_t`. -/
def toInt64 (w : Nat) : Int :=
  if w < 2 ^ 63 then (w : Int) else (w : Int) - 2 ^ 64

/-- Truncation of an `int64_t` result back to the 64-bit word pushed on the
stack. -/
def toWord64 (i : Int) : Nat := (i % 2 ^ 64).toNat

/-- Interpreter state for one dispatch-loop iteration: the current function
instruction bytes, the instruction offset `ip`, the operand words below the
frame pointer (head = top of stack), the argument words, and the output
written by SYS PRINTLN. -/
structure InterpState where
  code : List Nat
  ip : Nat
  stack : List Nat
  args : List Nat
  out : List Int
deriving Repr

/-- POP: reads `*sp++`; faults on an empty operand stack (the verifier rules
this out for validated code). -/
def popW : List Nat → Except String (Nat × List Nat)
  | [] => Except.error "pop from empty operand stack"
  | x :: s => Except.ok (x, s)

/-- BINARY_OP: pop `y`, pop `x`, push the 64-bit truncation of `f x y`
computed on the sign-extended values. -/
def binOpI (f : Int → Int → Int) (stack : List Nat) :
    Except String (List Nat) := do
  let (y, s1) ← popW stack
  let (x, s2) ← popW s1
  Except.ok (toWord64 (f (toInt64 x) (toInt64 y)) :: s2)

/-- A comparison BINARY_OP pushing 1 or 0. -/
def cmpOpI (f : Int → Int → Bool) (stack : List Nat) :
    Except String (List Nat) := do
  let (y, s1) ← popW stack
  let (x, s2) ← popW s1
  Except.ok ((if f (toInt64 x) (toInt64 y) then 1 else 0) :: s2)

/-- The body of `case Op::STOREARG`: read the `uint16_t` slot index from the
two bytes after the current opcode byte, pop a word and store it into that
argument slot.  (A store outside the argument area would clobber the frame;
the model faults there.) -/
def storeArgCase (st : InterpState) (stack : List Nat) :
    Except String InterpState := do
  let i := readLE 2 st.code (st.ip + 1)
  let (x, s1) ← popW stack
  if i < st.args.length then
    Except.ok { st with stack := s1, args := st.args.set i x }
  else
    Except.error "argument index outside frame"

/-- The switch body of the interpreter loop for one opcode, before the final
`ip = ip->next()`.  Note the `Op::SHR` case: as in the source, it has no
`break` and falls through into the `Op::STOREARG` case. -/
def interpSwitch (st : InterpState) : OpC → Except String InterpState
  | OpC.ADD => do
    let s ← binOpI (fun x y => x + y) st.stack
    Except.ok { st with stack := s }
  | OpC.AND => do
    let s ← binOpI (fun x y => Int.land x y) st.stack
    Except.ok { st with stack := s }
  | OpC.ASR => do
    let (y, s1) ← popW st.stack
    let (x, s2) ← popW s1
    let yv := toInt64 y
    if 0 ≤ yv ∧ yv < 64 then
      Except.ok { st with stack := toWord64 (Int.fdiv (toInt64 x) (2 ^ yv.toNat)) :: s2 }
    else
      Except.error "shift amount out of range"
  | OpC.B => Except.error "B is handled by the dispatch loop itself"
  | OpC.BIF => Except.error "BIF is handled by the dispatch loop itself"
  | OpC.CALL => Except.error "CALL is handled by the dispatch loop itself"
  | OpC.DIV => do
    let (y, s1) ← popW st.stack
    let (x, s2) ← popW s1
    let xv := toInt64 x
    let yv := toInt64 y
    if yv = 0 ∨ (xv = -(2 ^ 63) ∧ yv = -1) then
      Except.error "division fault"
    else
      Except.ok { st with stack := toWord64 (Int.tdiv xv yv) :: s2 }
  | OpC.FALSE => Except.ok { st with stack := 0 :: st.stack }
  | OpC.EQ => do
    let s ← cmpOpI (fun x y => x = y) st.stack
    Except.ok { st with stack := s }
  | OpC.GE => do
    let s ← cmpOpI (fun x y => y ≤ x) st.stack
    Except.ok { st with stack := s }
  | OpC.GT => do
    let s ← cmpOpI (fun x y => y < x) st.stack
    Except.ok { st with stack := s }
  | OpC.INT64 =>
    Except.ok { st with stack := readLE 8 st.code (st.ip + 1) :: st.stack }
  | OpC.LE => do
    let s ← cmpOpI (fun x y => x ≤ y) st.stack
    Except.ok { st with stack := s }
  | OpC.LOADARG =>
    let i := readLE 2 st.code (st.ip + 1)
    if i < st.args.length then
      Except.ok { st with stack := st.args.getD i 0 :: st.stack }
    else
      Except.error "argument index outside frame"
  | OpC.LOADLOCAL =>
    let iRaw := readLE 2 st.code (st.ip + 1)
    if iRaw < 2 ^ 15 ∧ iRaw < st.stack.length then
      Except.ok { st with stack := st.stack.getD (st.stack.length - 1 - iRaw) 0 :: st.stack }
    else
      Except.error "local index outside frame"
  | OpC.LT => do
    let s ← cmpOpI (fun x y => x < y) st.stack
    Except.ok { st with stack := s }
  | OpC.MOD => do
    let (y, s1) ← popW st.stack
    let (x, s2) ← popW s1
    let xv := toInt64 x
    let yv := toInt64 y
    if yv = 0 ∨ (xv = -(2 ^ 63) ∧ yv = -1) then
      Except.error "division fault"
    else
      Except.ok { st with stack := toWord64 (Int.tmod xv yv) :: s2 }
  | OpC.MUL => do
    let s ← binOpI (fun x y => x * y) st.stack
    Except.ok { st with stack := s }
  | OpC.NE => do
    let s ← cmpOpI (fun x y => x ≠ y) st.stack
    Except.ok { st with stack := s }
  | OpC.NEG => do
    let (x, s1) ← popW st.stack
    Except.ok { st with stack := toWord64 (-(toInt64 x)) :: s1 }
  | OpC.NOP => Except.ok st
  | OpC.NOT => do
    let (x, s1) ← popW st.stack
    Except.ok { st with stack := toWord64 (-(toInt64 x) - 1) :: s1 }
  | OpC.OR => do
    let s ← binOpI (fun x y => Int.lor x y) st.stack
    Except.ok { st with stack := s }
  | OpC.RET => Except.error "RET is handled by the dispatch loop itself"
  | OpC.SHL => do
    let (y, s1) ← popW st.stack
    let (x, s2) ← popW s1
    let yv := toInt64 y
    if 0 ≤ yv ∧ yv < 64 then
      Except.ok { st with stack := toWord64 (toInt64 x * 2 ^ yv.toNat) :: s2 }
    else
      Except.error "shift amount out of range"
  | OpC.SHR => do
    -- the source has no break here: after the shift it falls through into
    -- the STOREARG case
    let (y, s1) ← popW st.stack
    let (x, s2) ← popW s1
    let yv := toInt64 y
    if 0 ≤ yv ∧ yv < 64 then
      storeArgCase st (toWord64 (Int.fdiv (toInt64 x) (2 ^ yv.toNat)) :: s2)
    else
      Except.error "shift amount out of range"
  | OpC.STOREARG => storeArgCase st st.stack
  | OpC.STORELOCAL => do
    let iRaw := readLE 2 st.code (st.ip + 1)
    let (x, s1) ← popW st.stack
    if iRaw < 2 ^ 15 ∧ iRaw < s1.length then
      Except.ok { st with stack := s1.set (s1.length - 1 - iRaw) x }
    else
      Except.error "local index outside frame"
  | OpC.SUB => do
    let s ← binOpI (fun x y => x - y) st.stack
    Except.ok { st with stack := s }
  | OpC.SYS =>
    match st.code.getD (st.ip + 1) 0 with
    | 60 => Except.error "SYS EXIT terminates the process"
    | 127 => do
      let (v, s1) ← popW st.stack
      Except.ok { st with stack := s1, out := st.out ++ [toInt64 v] }
    | _ => Except.ok st
  | OpC.TRUE => Except.ok { st with stack := 1 :: st.stack }
  | OpC.UNIT => Except.ok { st with stack := 0 :: st.stack }
  | OpC.XOR => do
    let s ← binOpI (fun x y => Int.xor x y) st.stack
    Except.ok { st with stack := s }

/-- One iteration of the dispatch loop for a non-control opcode: run the
switch body, then advance `ip` by the size of the current instruction
(`ip = ip->next()`). -/
def interpStep (st : InterpState) : Except String InterpState := do
  match decodeOp (st.code.getD st.ip 0) with
  | none => Except.error "unknown opcode"
  | some op => do
    let st2 ← interpSwitch st op
    Except.ok { st2 with ip := st.ip + instSize op }

/-- A state about to execute SHR (opcode byte 22) followed by two NOP bytes,
with operand stack `[1, 4]` (top = 1) and one argument word holding 7. -/
def shrState : InterpState :=
  { code := [22, 0, 0], ip := 0, stack := [1, 4], args := [7], out := [] }

/-- C2 fails on the code at SHR: `ip` does advance by `size(ip) = 1`, but
because the `Op::SHR` case is missing its `break`, execution falls through
into `Op::STOREARG`: the shifted result `4 >> 1 = 2` is popped again and
stored into argument slot 0 (the slot index is read from the two bytes after
the SHR opcode).  The claimed behavior is stack `[2]` and unchanged
arguments `[7]`; the source leaves stack `[]` and arguments `[2]`. -/
theorem interpStep_shr_falls_through_to_storearg :
    interpStep shrState
      = Except.ok { code := [22, 0, 0], ip := 1, stack := [], args := [2], out := [] } := by
  rfl

/-! ## Chunk model (memory/chunk.h and memory/chunk.cpp)

A chunk is a 1 MiB aligned region; its first 32 KiB hold two bitmaps (one
bit per word of the chunk): the pointer bitmap based at word 0 and the mark
bitmap based at byte 16 KiB, i.e. word 2048.  The memory of the chunk is
modelled as a function from word index to 64-bit word value; the bitmaps
are views into the same words, exactly as in `Chunk::pointerBitmapLocked`
and `Chunk::markBitmapLocked`.  Out-of-range bitmap indices trip an ASSERT
in `Bitmap::wordIndexForBit`, modelled as an error result. -/

/-- Chunk::kSize = 1 MB. -/
def kChunkSize : Nat := 2 ^ 20

/-- Chunk::kWordsInChunk. -/
def kWordsInChunk : Nat := kChunkSize / 8

/-- Chunk::kBitmapSizeInBytes: the two bitmaps take 32 KiB. -/
def kChunkBitmapBytes : Nat := kWordsInChunk * 2 / 8

/-- Chunk::kDataOffset = kBitmapSizeInBytes. -/
def kChunkDataOffset : Nat := kChunkBitmapBytes

/-- Word index at which the mark bitmap starts (byte offset
`kBitmapSizeInBytes / 2`). -/
def kMarkBitmapBase : Nat := kChunkBitmapBytes / 2 / 8

/-- Mutable chunk state: header fields plus the chunk memory, word-indexed.
`freeList` and `freeSpace` hold absolute addresses as in the source
(`freeList = 0` means the free list is empty). -/
structure ChunkSt where
  base : Nat
  blockSize : Nat
  bytesAllocated : Nat
  freeList : Nat
  freeSpace : Nat
  words : Nat → Nat

/-- Unsigned 64-bit subtraction `a - b` (wraps modulo 2^64 like `uintptr_t`). -/
def subW (a b : Nat) : Nat := (a + (2 ^ 64 - b % 2 ^ 64)) % 2 ^ 64

/-- Model of `Bitmap::at` for a bitmap based at chunk word `baseWord` with
`bitCount` bits; out-of-range indices trip the ASSERT. -/
def bitmapAtW (words : Nat → Nat) (baseWord bitCount index : Nat) :
    Except String Bool :=
  if index < bitCount then
    Except.ok ((words (baseWord + index / 64) &&& (1 <<< (index % 64))) != 0)
  else Except.error "bitmap index out of range"

/-- Model of `bitInsert(n, value, 1, shift)` from common/common.h. -/
def bitInsertW (n v shift : Nat) : Nat :=
  let mask := 1 <<< shift
  (n &&& (2 ^ 64 - 1 - mask)) ||| ((v <<< shift) &&& mask)

/-- Model of `Bitmap::set`. -/
def bitmapSetW (words : Nat → Nat) (baseWord bitCount index : Nat) (value : Bool) :
    Except String (Nat → Nat) :=
  if index < bitCount then
    let wi := baseWord + index / 64
    Except.ok (fun j =>
      if j = wi then bitInsertW (words wi) (if value then 1 else 0) (index % 64)
      else words j)
  else Except.error "bitmap index out of range"

/-- Reading bit `i` of the mark bitmap. -/
def markAtW (words : Nat → Nat) (i : Nat) : Except String Bool :=
  bitmapAtW words kMarkBitmapBase kWordsInChunk i

/-- Writing bit `i` of the pointer bitmap. -/
def ptrSetW (words : Nat → Nat) (i : Nat) (v : Bool) : Except String (Nat → Nat) :=
  bitmapSetW words 0 kWordsInChunk i v

/-- Model of `markBitmapLocked().clear()`: zero the 2048 words backing the
mark bitmap. -/
def markClearW (words : Nat → Nat) : Nat → Nat :=
  fun j =>
    if kMarkBitmapBase ≤ j ∧ j < kMarkBitmapBase + kWordsInChunk / 64 then 0
    else words j

/-- Storing a value into one chunk word. -/
def setWordAt (words : Nat → Nat) (i v : Nat) : Nat → Nat :=
  fun j => if j = i then v else words j

/-- Model of `std::fill(words + lo, words + hi, 0)`. -/
def fillZeroRange (words : Nat → Nat) (lo hi : Nat) : Nat → Nat :=
  fun j => if lo ≤ j ∧ j < hi then 0 else words j

/-- The frontier-expansion loop of `Chunk::sweep`: step the free index back
one block at a time while the previous block is unmarked.  One unit of fuel
per iteration. -/
def sweepExpandLoop (words : Nat → Nat) (beginIndex wordsPerBlock : Nat) :
    Nat → Nat → Except String Nat
  | 0, _ => Except.error "out of fuel"
  | fuel + 1, freeIndex =>
    if freeIndex > beginIndex then
      match markAtW words (subW freeIndex wordsPerBlock) with
      | Except.error e => Except.error e
      | Except.ok true => Except.ok freeIndex
      | Except.ok false =>
        sweepExpandLoop words beginIndex wordsPerBlock fuel (subW freeIndex wordsPerBlock)
    else Except.ok freeIndex

/-- The pointer-bit clearing loop over the expanded frontier
(`for i in [freeIndex, origFreeIndex) : ptr.set(i, false)`), recursing on the
number of remaining words. -/
def ptrClearRange : (Nat → Nat) → Nat → Nat → Except String (Nat → Nat)
  | words, _, 0 => Except.ok words
  | words, i, c + 1 =>
    match ptrSetW words i false with
    | Except.error e => Except.error e
    | Except.ok w => ptrClearRange w (i + 1) c

/-- The inner loop of the free-list rebuild: clear pointer bits and zero the
words of a freed block after its first word
(`for i in [1, wordsPerBlock)`). -/
def zeroBlockTail : (Nat → Nat) → Nat → Nat → Nat → Except String (Nat → Nat)
  | words, _, _, 0 => Except.ok words
  | words, blockIndex, i, c + 1 =>
    match ptrSetW words (blockIndex + i) false with
    | Except.error e => Except.error e
    | Except.ok w => zeroBlockTail (setWordAt w (blockIndex + i) 0) blockIndex (i + 1) c

/-- The free-list rebuild loop of `Chunk::sweep`.  The loop index is a
`uintptr_t`; as in the source it starts at `freeIndex - wordsPerBlock`, runs
while `blockIndex >= beginIndex` and decrements by `wordsPerBlock`, all
modulo 2^64.  Returns the final words, free-list head and bytes allocated. -/
def sweepRebuildLoop (base blockSize beginIndex wordsPerBlock : Nat) :
    Nat → Nat → (Nat → Nat) → Nat → Nat → Except String ((Nat → Nat) × Nat × Nat)
  | 0, _, _, _, _ => Except.error "out of fuel"
  | fuel + 1, blockIndex, words, freeList, bytesAllocated =>
    if blockIndex ≥ beginIndex then
      match markAtW words blockIndex with
      | Except.error e => Except.error e
      | Except.ok true =>
        sweepRebuildLoop base blockSize beginIndex wordsPerBlock fuel
          (subW blockIndex wordsPerBlock) words freeList (bytesAllocated + blockSize)
      | Except.ok false =>
        match ptrSetW words blockIndex false with
        | Except.error e => Except.error e
        | Except.ok w1 =>
          match zeroBlockTail (setWordAt w1 blockIndex freeList) blockIndex 1
              (wordsPerBlock - 1) with
          | Except.error e => Except.error e
          | Except.ok w2 =>
            sweepRebuildLoop base blockSize beginIndex wordsPerBlock fuel
              (subW blockIndex wordsPerBlock) w2 (base + 8 * blockIndex) bytesAllocated
    else Except.ok (words, freeList, bytesAllocated)

/-- Fuel covering every possible in-range iteration of the sweep loops. -/
def chunkSweepFuel : Nat := kWordsInChunk + 2

/-- Model of `Chunk::sweep` (memory/chunk.cpp). -/
def chunkSweep (c : ChunkSt) : Except String ChunkSt :=
  let beginIndex := kChunkDataOffset / 8
  let origFreeIndex := (c.freeSpace - c.base) / 8
  let wordsPerBlock := c.blockSize / 8
  match sweepExpandLoop c.words beginIndex wordsPerBlock chunkSweepFuel origFreeIndex with
  | Except.error e => Except.error e
  | Except.ok freeIndex =>
    let w1 := fillZeroRange c.words freeIndex origFreeIndex
    match ptrClearRange w1 freeIndex (origFreeIndex - freeIndex) with
    | Except.error e => Except.error e
    | Except.ok w2 =>
      match sweepRebuildLoop c.base c.blockSize beginIndex wordsPerBlock chunkSweepFuel
          (subW freeIndex wordsPerBlock) w2 0 0 with
      | Except.error e => Except.error e
      | Except.ok r =>
        Except.ok { c with
          words := markClearW r.1,
          freeList := r.2.1,
          freeSpace := c.base + 8 * freeIndex,
          bytesAllocated := r.2.2 }

/-- Model of `Chunk::allocate` (memory/chunk.h): pop the free list head, or
bump the free frontier; returns the new state and the block address
(0 when the chunk is full). -/
def chunkAllocate (c : ChunkSt) : ChunkSt × Nat :=
  if c.freeList ≠ 0 then
    let idx := (c.freeList - c.base) / 8
    ({ c with
        freeList := c.words idx,
        words := setWordAt c.words idx 0,
        bytesAllocated := c.bytesAllocated + c.blockSize }, c.freeList)
  else if c.freeSpace + c.blockSize ≤ c.base + kChunkSize then
    ({ c with
        freeSpace := c.freeSpace + c.blockSize,
        bytesAllocated := c.bytesAllocated + c.blockSize }, c.freeSpace)
  else (c, 0)

/-! ## C5: the free-block invariant after Chunk::sweep

`kMaxBlockSize` is 128 KiB, but for any block size above 32 KiB
(`wordsPerBlock > kDataOffset / 8 = 4096`) the rebuild loop underflows: after
processing the block at the start of the data section (word index 4096) the
unsigned decrement `blockIndex -= wordsPerBlock` wraps around to
`2^64 - (wordsPerBlock - 4096)`, which still satisfies
`blockIndex >= beginIndex`, and the following mark-bitmap access is out of
range. -/

/-- A chunk with 64 KiB blocks (wordsPerBlock = 8192) whose single block at
the start of the data section (word 4096) is marked; the free frontier
starts right after it. -/
def chunk64K : ChunkSt :=
  { base := 2 ^ 20, blockSize := 65536, bytesAllocated := 65536, freeList := 0,
    freeSpace := 2 ^ 20 + 8 * 12288,
    words := fun i => if i = 2112 then 1 else 0 }

/-- C5 fails on the code: sweeping a chunk with 64 KiB blocks and one live
block aborts inside the free-list rebuild loop.  The loop index underflows
from 4096 to 2^64 - 4096, which still passes the `blockIndex >= beginIndex`
test, and the mark-bitmap lookup trips the `index < bitCount` assertion, so
sweep never reestablishes the free-block invariant for such chunks. -/
theorem chunkSweep_large_block_faults :
    chunkSweep chunk64K = Except.error "bitmap index out of range" := by
  rfl

/-! ## C6: Heap::sweepLocked (memory/heap.cpp)

The source calls `std::remove_if(chunks.begin(), chunks.end(), …)` to drop
chunks without marks, but discards the returned iterator and never calls
`erase`, so the vector keeps its length; the supposedly dropped chunks (or
the moved-from null `unique_ptr`s remove_if leaves behind) are then swept
and re-counted.  The chunk vector is modelled as a list of
`Option ChunkSt` (a `none` is a moved-from null `unique_ptr`). -/

/-- Model of `Chunk::hasMark`: scan the 2048 words of the mark bitmap. -/
def hasMarkLoop (words : Nat → Nat) : Nat → Nat → Bool
  | _, 0 => false
  | i, c + 1 =>
    if words (kMarkBitmapBase + i) != 0 then true
    else hasMarkLoop words (i + 1) c

/-- Chunk::hasMark. -/
def chunkHasMark (c : ChunkSt) : Bool :=
  hasMarkLoop c.words 0 (kWordsInChunk / 64)

/-- Dereferencing a `unique_ptr<Chunk>`: a moved-from null pointer faults. -/
def derefChunk : Option ChunkSt → Except String ChunkSt
  | some c => Except.ok c
  | none => Except.error "null chunk pointer"

/-- The `std::find_if` phase of `std::remove_if`: the first index at or
after `i` whose chunk satisfies the predicate (`c` counts the remaining
elements). -/
def findIfC (p : ChunkSt → Bool) (arr : List (Option ChunkSt)) :
    Nat → Nat → Except String Nat
  | i, 0 => Except.ok i
  | i, c + 1 =>
    match derefChunk (arr.getD i none) with
    | Except.error e => Except.error e
    | Except.ok ch =>
      if p ch then Except.ok i else findIfC p arr (i + 1) c

/-- The shifting phase of `std::remove_if`: elements not satisfying the
predicate are move-assigned down to `dest`, leaving a null `unique_ptr` at
their old position. -/
def removeIfMove (p : ChunkSt → Bool) :
    List (Option ChunkSt) → Nat → Nat → Nat → Except String (List (Option ChunkSt))
  | arr, _, _, 0 => Except.ok arr
  | arr, i, dest, c + 1 =>
    match derefChunk (arr.getD i none) with
    | Except.error e => Except.error e
    | Except.ok ch =>
      if p ch then removeIfMove p arr (i + 1) dest c
      else removeIfMove p ((arr.set dest (arr.getD i none)).set i none) (i + 1) (dest + 1) c

/-- `std::remove_if` as called by `Heap::sweepLocked`: the compacted vector
is produced, but — the return value being discarded and `erase` never
called — the vector keeps its full length. -/
def removeIfNoErase (p : ChunkSt → Bool) (arr : List (Option ChunkSt)) :
    Except String (List (Option ChunkSt)) :=
  match findIfC p arr 0 arr.length with
  | Except.error e => Except.error e
  | Except.ok first =>
    if first < arr.length then removeIfMove p arr (first + 1) first (arr.length - (first + 1))
    else Except.ok arr

/-- The second loop of `Heap::sweepLocked`: sweep every chunk remaining in
the vector and accumulate `bytesAllocated`. -/
def sweepEachChunk : List (Option ChunkSt) → Except String (List (Option ChunkSt) × Nat)
  | [] => Except.ok ([], 0)
  | e :: rest =>
    match derefChunk e with
    | Except.error err => Except.error err
    | Except.ok c =>
      match chunkSweep c with
      | Except.error err => Except.error err
      | Except.ok c2 =>
        match sweepEachChunk rest with
        | Except.error err => Except.error err
        | Except.ok r => Except.ok (some c2 :: r.1, c2.bytesAllocated + r.2)

/-- Heap::sweepLocked restricted to one block-size chunk list. -/
def sweepChunkList (l : List (Option ChunkSt)) :
    Except String (List (Option ChunkSt) × Nat) :=
  match removeIfNoErase (fun c => ! chunkHasMark c) l with
  | Except.error e => Except.error e
  | Except.ok arr => sweepEachChunk arr

/-- Model of `Heap::sweepLocked` over the per-size chunk lists
(`chunksBySize_`), returning the new lists and the recomputed total
`bytesAllocated_`. -/
def heapSweepLocked :
    List (Nat × List (Option ChunkSt)) → Except String (List (Nat × List (Option ChunkSt)) × Nat)
  | [] => Except.ok ([], 0)
  | (sz, l) :: rest =>
    match sweepChunkList l with
    | Except.error e => Except.error e
    | Except.ok r =>
      match heapSweepLocked rest with
      | Except.error e => Except.error e
      | Except.ok r2 => Except.ok ((sz, r.1) :: r2.1, r.2 + r2.2)

/-- A chunk with no marked block at all (freshly zeroed, 8-byte blocks, the
whole data section still in the free frontier). -/
def chunkUnmarked : ChunkSt :=
  { base := 2 ^ 20, blockSize := 8, bytesAllocated := 0, freeList := 0,
    freeSpace := 2 ^ 20 + kChunkDataOffset, words := fun _ => 0 }

set_option maxRecDepth 40000 in
/-- C6 fails on the code: a size class holding a single chunk with
`hasMark() = false` still holds that chunk after `sweepLocked` — the length
of the chunk list stays 1 where the claim requires the chunk to be dropped
(length 0), because the result of `std::remove_if` is discarded without an
`erase`. -/
theorem heapSweepLocked_keeps_unmarked_chunk :
    Except.map (fun r => r.1.map (fun e => (e.1, e.2.length)))
        (heapSweepLocked [(8, [some chunkUnmarked])])
      = Except.ok [(8, 1)] := by
  rfl

/-! ## C9: Assembler branch patching via labels (asm.cpp / asm.h)

`Assembler` keeps a byte buffer (a deque of fragments; `addrOf` and `finish`
treat the fragments as one contiguous byte sequence, and `ensureSpace`
guarantees no instruction straddles a fragment, so the buffer is modelled as
a single byte list) plus the running size.  An unbound `Label` holds the
absolute offset of the immediate of its most recent use; each use stores the
previous one, forming a linked list through the buffer that ends at 0.
`bind` walks that list and overwrites each 4-byte immediate with
`labelOffset - instOffset`. -/

/-- kMaxFunctionSize (package/inst.h). -/
def kMaxFunctionSize : Nat := 0x7FFFFFFF

/-- Encoding of an `int32_t` as 4 little-endian bytes (two-complement). -/
def intToLE32 (v : Int) : List Nat := writeLE 4 ((v % (2 ^ 32 : Int)).toNat)

/-- Decoding of 4 little-endian bytes as an `int32_t`. -/
def readI32 (l : List Nat) (off : Nat) : Int :=
  let n := readLE 4 l off
  if n < 2 ^ 31 then (n : Int) else (n : Int) - 2 ^ 32

/-- An assembler `Label`: `offset` is the bound position, or the head of the
use list while unbound. -/
structure AsmLabel where
  offset : Int
  bound : Bool

/-- The assembler buffer (flattened fragments) and emitted size. -/
structure AsmBuf where
  buf : List Nat
  size : Nat

/-- Model of `Assembler::op1_label` (used by `b` and `bif`): push the opcode
and either the resolved offset (bound label) or the previous use-list head
(unbound label, which is then updated to point at this immediate).
`ensureSpace` raises on exceeding `kMaxFunctionSize`. -/
def asmOp1Label (op : Nat) (a : AsmBuf) (lab : AsmLabel) :
    Except String (AsmBuf × AsmLabel) :=
  let offset : Int := (a.size : Int)
  if a.size + 5 > kMaxFunctionSize then Except.error "maximum function size exceeded"
  else if lab.bound then
    Except.ok ({ buf := a.buf ++ op :: intToLE32 (lab.offset - offset), size := a.size + 5 }, lab)
  else
    Except.ok ({ buf := a.buf ++ op :: intToLE32 lab.offset, size := a.size + 5 },
      { offset := offset + 1, bound := false })

/-- Overwriting `bytes.length` bytes of `l` starting at `off`. -/
def writeBytesAt (l : List Nat) (off : Nat) (bytes : List Nat) : List Nat :=
  l.take off ++ bytes ++ l.drop (off + bytes.length)

/-- The use-list walk of `Assembler::bind`: read the next link from the
immediate, then overwrite it with `labelOffset - instOffset` where
`instOffset = useOffset - 1` is the branch opcode position.  The `addrOf`
ASSERT bounds-checks each use offset.  Fuel counts loop iterations. -/
def asmBindLoop (size : Nat) (labelOffset : Int) :
    Nat → List Nat → Int → Except String (List Nat)
  | 0, _, _ => Except.error "out of fuel"
  | fuel + 1, buf, useOffset =>
    if useOffset ≠ 0 then
      if 0 ≤ useOffset ∧ useOffset < (size : Int) then
        let u := useOffset.toNat
        let nextUseOffset := readI32 buf u
        asmBindLoop size labelOffset fuel
          (writeBytesAt buf u (intToLE32 (labelOffset - (useOffset - 1)))) nextUseOffset
      else Except.error "use offset out of range"
    else Except.ok buf

/-- Model of `Assembler::bind`: patch every recorded use, then mark the label
bound at the current emission offset. -/
def asmBind (a : AsmBuf) (lab : AsmLabel) : Except String (AsmBuf × AsmLabel) :=
  if lab.bound then Except.error "label is already bound"
  else
    match asmBindLoop a.size ((a.size : Int)) (a.size + 2) a.buf lab.offset with
    | Except.error e => Except.error e
    | Except.ok buf =>
      Except.ok ({ a with buf := buf }, { offset := (a.size : Int), bound := true })

/-- Well-formedness of an unbound label's use list inside the buffer:
`LabelChain buf o us` says that starting from link value `o` the stored
links visit exactly the immediate offsets `us`, each a genuine in-bounds
immediate position, with successive uses at least 4 bytes apart (branch
immediates never overlap), ending at the 0 sentinel. -/
inductive LabelChain (buf : List Nat) : Int → List Nat → Prop
  | nil : LabelChain buf 0 []
  | cons (u : Nat) (us : List Nat) :
      1 ≤ u →
      u + 4 ≤ buf.length →
      (∀ v ∈ us, v + 4 ≤ u) →
      LabelChain buf (readI32 buf u) us →
      LabelChain buf (u : Int) (u :: us)

theorem readLEAux_zero_list (w : Nat) : readLEAux w ([] : List Nat) = 0 := by
  cases w <;> rfl

theorem readLEAux_succ (m : Nat) (l : List Nat) :
    readLEAux (m + 1) l = l.getD 0 0 + 256 * readLEAux m (l.drop 1) := by
  cases l with
  | nil => simp [readLEAux, readLEAux_zero_list, List.getD]
  | cons b rest => rfl

theorem getD_drop_nat (l : List Nat) (j k : Nat) :
    (l.drop j).getD k 0 = l.getD (j + k) 0 := by
  induction j generalizing l with
  | zero => simp
  | succ m ih =>
    cases l with
    | nil => simp [List.getD]
    | cons b rest =>
      show (rest.drop m).getD k 0 = (b :: rest).getD (m + 1 + k) 0
      rw [ih rest]
      have h : m + 1 + k = (m + k) + 1 := by omega
      rw [h]
      rfl

theorem getD_append_lt (a b : List Nat) (p : Nat) (h : p < a.length) :
    (a ++ b).getD p 0 = a.getD p 0 := by
  induction a generalizing p with
  | nil => simp at h
  | cons x xs ih =>
    cases p with
    | zero => rfl
    | succ q =>
      show (xs ++ b).getD q 0 = xs.getD q 0
      exact ih q (by simpa using h)

theorem getD_append_ge (a b : List Nat) (p : Nat) (h : a.length ≤ p) :
    (a ++ b).getD p 0 = b.getD (p - a.length) 0 := by
  induction a generalizing p with
  | nil => simp
  | cons x xs ih =>
    cases p with
    | zero => simp at h
    | succ q =>
      show (xs ++ b).getD q 0 = b.getD (q + 1 - (xs.length + 1)) 0
      rw [ih q (by simpa using h)]
      congr 1
      omega

theorem getD_take_lt (l : List Nat) (off p : Nat) (h : p < off) :
    (l.take off).getD p 0 = l.getD p 0 := by
  induction l generalizing off p with
  | nil => simp
  | cons x xs ih =>
    cases off with
    | zero => omega
    | succ o =>
      cases p with
      | zero => rfl
      | succ q =>
        show (xs.take o).getD q 0 = xs.getD q 0
        exact ih o q (by omega)

theorem readLEAux_congr (w : Nat) (l₁ l₂ : List Nat)
    (h : ∀ k, k < w → l₁.getD k 0 = l₂.getD k 0) :
    readLEAux w l₁ = readLEAux w l₂ := by
  induction w generalizing l₁ l₂ with
  | zero => rfl
  | succ m ih =>
    rw [readLEAux_succ, readLEAux_succ, h 0 (by omega),
      ih (l₁.drop 1) (l₂.drop 1) (fun k hk => by
        rw [getD_drop_nat, getD_drop_nat]
        exact h (1 + k) (by omega))]

/-- Reads depend only on the bytes of the window. -/
theorem readLE_congr (w : Nat) (l₁ l₂ : List Nat) (j : Nat)
    (h : ∀ k, k < w → l₁.getD (j + k) 0 = l₂.getD (j + k) 0) :
    readLE w l₁ j = readLE w l₂ j := by
  unfold readLE
  exact readLEAux_congr w _ _ (fun k hk => by
    rw [getD_drop_nat, getD_drop_nat]
    exact h k hk)

theorem writeBytesAt_length (l bytes : List Nat) (off : Nat)
    (h : off + bytes.length ≤ l.length) :
    (writeBytesAt l off bytes).length = l.length := by
  unfold writeBytesAt
  simp [List.length_take, List.length_drop]
  omega

theorem writeBytesAt_getD (l bytes : List Nat) (off p : Nat)
    (h : off + bytes.length ≤ l.length) :
    (writeBytesAt l off bytes).getD p 0
      = if off ≤ p ∧ p < off + bytes.length then bytes.getD (p - off) 0
        else l.getD p 0 := by
  unfold writeBytesAt
  have htake : (l.take off).length = off := by
    simp [List.length_take]
    omega
  have hA : (l.take off ++ bytes).length = off + bytes.length := by
    simp [htake]
  rcases Nat.lt_or_ge p off with hp | hp
  · rw [getD_append_lt _ _ p (by omega), getD_append_lt _ _ p (by omega),
      getD_take_lt l off p hp]
    simp [show ¬(off ≤ p ∧ p < off + bytes.length) by omega]
  · rcases Nat.lt_or_ge p (off + bytes.length) with hp2 | hp2
    · rw [getD_append_lt _ _ p (by omega), getD_append_ge _ _ p (by omega), htake]
      simp [show off ≤ p ∧ p < off + bytes.length from ⟨hp, hp2⟩]
    · rw [getD_append_ge _ _ p (by omega), hA, getD_drop_nat]
      have harg : off + bytes.length + (p - (off + bytes.length)) = p := by omega
      rw [harg]
      simp [show ¬(off ≤ p ∧ p < off + bytes.length) by omega]

/-- Reading a window disjoint from an overwrite sees the old bytes. -/
theorem readLE_writeBytesAt_disjoint (l bytes : List Nat) (off j w : Nat)
    (hoff : off + bytes.length ≤ l.length)
    (hdisj : j + w ≤ off ∨ off + bytes.length ≤ j) :
    readLE w (writeBytesAt l off bytes) j = readLE w l j := by
  apply readLE_congr
  intro k hk
  rw [writeBytesAt_getD l bytes off (j + k) hoff]
  have : ¬(off ≤ j + k ∧ j + k < off + bytes.length) := by omega
  simp [this]

/-- Reading back the overwritten window itself. -/
theorem readLE_writeBytesAt_self (l : List Nat) (off w v : Nat)
    (hoff : off + w ≤ l.length) (hv : v < 256 ^ w) :
    readLE w (writeBytesAt l off (writeLE w v)) off = v := by
  have hwlen : (writeLE w v).length = w := writeLE_length w v
  have htake : (l.take off).length = off := by
    simp [List.length_take]
    omega
  unfold writeBytesAt readLE
  rw [hwlen]
  have hsplit : l.take off ++ writeLE w v ++ l.drop (off + w)
      = l.take off ++ (writeLE w v ++ l.drop (off + w)) := by
    simp
  rw [hsplit]
  have hdrop : (l.take off ++ (writeLE w v ++ l.drop (off + w))).drop off
      = writeLE w v ++ l.drop (off + w) := by
    have h0 := drop_append_length (l.take off) (writeLE w v ++ l.drop (off + w)) 0
    rw [htake] at h0
    simpa using h0
  rw [hdrop]
  exact readLEAux_writeLE w v _ hv

theorem intToLE32_length (v : Int) : (intToLE32 v).length = 4 :=
  writeLE_length 4 _

/-- Decode-after-encode for `int32_t` values in range. -/
theorem readI32_writeBytesAt (l : List Nat) (off : Nat) (v : Int)
    (hoff : off + 4 ≤ l.length) (h1 : -(2 ^ 31) ≤ v) (h2 : v < 2 ^ 31) :
    readI32 (writeBytesAt l off (intToLE32 v)) off = v := by
  have hmod : (v % (2 ^ 32 : Int)).toNat < 256 ^ 4 := by
    have h0 : (0 : Int) ≤ v % (2 ^ 32 : Int) := Int.emod_nonneg v (by norm_num)
    have hlt : v % (2 ^ 32 : Int) < 2 ^ 32 := Int.emod_lt_of_pos v (by norm_num)
    omega
  have hr : readLE 4 (writeBytesAt l off (intToLE32 v)) off = (v % (2 ^ 32 : Int)).toNat := by
    unfold intToLE32
    exact readLE_writeBytesAt_self l off 4 _ hoff hmod
  unfold readI32
  rw [hr]
  rcases le_or_lt 0 v with hv | hv
  · have : v % (2 ^ 32 : Int) = v := Int.emod_eq_of_lt hv (by omega)
    rw [this]
    have hvn : v.toNat < 2 ^ 31 := by omega
    simp [hvn]
    omega
  · have : v % (2 ^ 32 : Int) = v + 2 ^ 32 := by
      have h0 : (0 : Int) ≤ v % (2 ^ 32 : Int) := Int.emod_nonneg v (by norm_num)
      have hlt : v % (2 ^ 32 : Int) < 2 ^ 32 := Int.emod_lt_of_pos v (by norm_num)
      omega
    rw [this]
    have hge : ¬((v + 2 ^ 32).toNat < 2 ^ 31) := by omega
    simp [hge]
    omega

/-- Patching one immediate leaves a use chain running strictly below it
intact. -/
theorem LabelChain_write_above (buf bytes : List Nat) (off : Nat)
    (hoff : off + bytes.length ≤ buf.length) :
    ∀ o us, LabelChain buf o us → (∀ v ∈ us, v + 4 ≤ off) →
      LabelChain (writeBytesAt buf off bytes) o us := by
  intro o us hchain
  induction hchain with
  | nil => intro _; exact LabelChain.nil
  | cons u us h1 h2 h3 hrec ih =>
    intro hbelow
    have hu : u + 4 ≤ off := hbelow u (by simp)
    have hread : readI32 (writeBytesAt buf off bytes) u = readI32 buf u := by
      unfold readI32
      rw [readLE_writeBytesAt_disjoint buf bytes off u 4 hoff (Or.inl hu)]
    have htail := ih (fun v hv => by
      have := h3 v hv
      omega)
    refine ?_
    have hcons := @LabelChain.cons (writeBytesAt buf off bytes) u us h1
      (by rw [writeBytesAt_length buf bytes off hoff]; exact h2)
      h3 (by rw [hread]; exact htail)
    exact hcons

theorem LabelChain_head_eq (buf : List Nat) (o : Int) (v : Nat) (us : List Nat)
    (h : LabelChain buf o (v :: us)) : o = (v : Int) := by
  cases h
  rfl

theorem LabelChain_head_le (buf : List Nat) (o : Int) (v : Nat) (us : List Nat)
    (h : LabelChain buf o (v :: us)) : v + 4 ≤ buf.length := by
  cases h
  assumption

/-- A use chain has fewer than `size` elements (successive links drop by at
least 4). -/
theorem LabelChain_length_bound (buf : List Nat) :
    ∀ o us, LabelChain buf o us → 4 * us.length ≤ o.toNat + 3 := by
  intro o us hchain
  induction hchain with
  | nil => simp
  | cons u us h1 h2 h3 hrec ih =>
    cases us with
    | nil => simp; omega
    | cons v us2 =>
      have hv4 : v + 4 ≤ u := h3 v (by simp)
      have hhead : readI32 buf u = (v : Int) :=
        LabelChain_head_eq buf (readI32 buf u) v us2 hrec
      rw [hhead] at ih
      simp only [List.length_cons] at ih ⊢
      simp only [Int.toNat_ofNat] at ih ⊢
      omega

/-- The bind loop patches every use in the chain with
`labelOffset - instOffset` and touches no other byte. -/
theorem asmBindLoop_patches (L : Int) (size : Nat)
    (hL : L = (size : Int)) (hsize : size < 2 ^ 31) :
    ∀ us buf o fuel, LabelChain buf o us → buf.length = size →
      us.length < fuel →
      ∃ buf2, asmBindLoop size L fuel buf o = Except.ok buf2 ∧
        buf2.length = size ∧
        (∀ u ∈ us, readI32 buf2 u = L - ((u : Int) - 1)) ∧
        (∀ w j, (∀ u ∈ us, j + w ≤ u ∨ u + 4 ≤ j) → readLE w buf2 j = readLE w buf j) := by
  intro us
  induction us with
  | nil =>
    intro buf o fuel hchain hlen hfuel
    have ho : o = 0 := by cases hchain; rfl
    cases fuel with
    | zero => omega
    | succ f =>
      refine ⟨buf, ?_, hlen, by simp, fun w j _ => rfl⟩
      simp [asmBindLoop, ho]
  | cons u us ih =>
    intro buf o fuel hchain hlen hfuel
    have hcons : o = (u : Int) ∧ 1 ≤ u ∧ u + 4 ≤ buf.length ∧
        (∀ v ∈ us, v + 4 ≤ u) ∧ LabelChain buf (readI32 buf u) us := by
      cases hchain with
      | cons _ _ h1 h2 h3 hrec => exact ⟨rfl, h1, h2, h3, hrec⟩
    obtain ⟨ho, h1, h2, h3, hrec⟩ := hcons
    cases fuel with
    | zero => omega
    | succ f =>
      have hne : o ≠ 0 := by rw [ho]; omega
      have hbound : 0 ≤ o ∧ o < (size : Int) := by
        rw [ho]
        constructor
        · omega
        · have : u < size := by omega
          exact_mod_cast this
      have htoNat : o.toNat = u := by rw [ho]; simp
      -- the patched buffer after this iteration
      set patch : Int := L - (o - 1) with hpatch
      set buf2 : List Nat := writeBytesAt buf u (intToLE32 patch) with hbuf2
      have hofflen : u + (intToLE32 patch).length ≤ buf.length := by
        rw [intToLE32_length]
        omega
      have hlen2 : buf2.length = size := by
        rw [hbuf2, writeBytesAt_length buf _ u hofflen, hlen]
      have hchain2 : LabelChain buf2 (readI32 buf u) us := by
        rw [hbuf2]
        exact LabelChain_write_above buf (intToLE32 patch) u hofflen
          (readI32 buf u) us hrec h3
      obtain ⟨buf3, hloop, hlen3, hreads, hpres⟩ :=
        ih buf2 (readI32 buf u) f hchain2 hlen2 (by simpa using Nat.lt_of_succ_lt_succ hfuel)
      have hstep : asmBindLoop size L (f + 1) buf o
          = asmBindLoop size L f buf2 (readI32 buf u) := by
        simp only [asmBindLoop]
        rw [if_pos hne, if_pos hbound]
        rw [htoNat, hbuf2, hpatch, ho]
      refine ⟨buf3, by rw [hstep]; exact hloop, hlen3, ?_, ?_⟩
      · intro x hx
        rcases List.mem_cons.mp hx with hx0 | hxs
        · subst hx0
          have hx4 : readLE 4 buf3 x = readLE 4 buf2 x := by
            apply hpres 4 x
            intro v hv
            exact Or.inr (h3 v hv)
          have hval : readI32 buf2 x = patch := by
            rw [hbuf2]
            apply readI32_writeBytesAt buf x patch (by omega)
            · rw [hpatch, hL, ho]
              have : (1 : Int) ≤ (x : Int) := by exact_mod_cast h1
              omega
            · rw [hpatch, hL, ho]
              have hx0 : (0 : Int) ≤ (x : Int) := by positivity
              have hs : (size : Int) < 2 ^ 31 := by exact_mod_cast hsize
              omega
          have : readI32 buf3 x = readI32 buf2 x := by
            unfold readI32
            rw [hx4]
          rw [this, hval, hpatch, ho]
        · exact hreads x hxs
      · intro w j hdisj
        have h1p : readLE w buf3 j = readLE w buf2 j := by
          apply hpres w j
          intro v hv
          exact hdisj v (by simp [hv])
        have h2p : readLE w buf2 j = readLE w buf j := by
          rw [hbuf2]
          apply readLE_writeBytesAt_disjoint buf _ u j w hofflen
          have := hdisj u (by simp)
          rw [intToLE32_length]
          exact this
        rw [h1p, h2p]

/-- C9: for every branch assembled through a label, the patched signed
32-bit immediate equals the labeled instruction offset minus the branch
opcode offset.  Part one: the label was bound first (backward branch), the
immediate is written directly by `op1_label`.  Part two: the label is bound
after the branches (forward branches); `Assembler::bind` walks the use list
and patches every immediate. -/
theorem assembler_branch_offset_correct (a : AsmBuf) (lab : AsmLabel) (op : Nat)
    (hlen : a.buf.length = a.size) (hsize : a.size + 5 ≤ kMaxFunctionSize) :
    (lab.bound = true →
      (-(2 ^ 31) : Int) ≤ lab.offset - (a.size : Int) →
      lab.offset - (a.size : Int) < 2 ^ 31 →
      ∃ r, asmOp1Label op a lab = Except.ok r ∧
        readI32 r.1.buf (a.size + 1) = lab.offset - (a.size : Int)) ∧
    (∀ us, lab.bound = false → LabelChain a.buf lab.offset us →
      ∃ r, asmBind a lab = Except.ok r ∧
        ∀ u ∈ us, readI32 r.1.buf u = (a.size : Int) - ((u : Int) - 1)) := by
  constructor
  · intro hb hlow hhigh
    refine ⟨({ buf := a.buf ++ op :: intToLE32 (lab.offset - (a.size : Int)),
               size := a.size + 5 }, lab), ?_, ?_⟩
    · unfold asmOp1Label
      rw [if_neg (by unfold kMaxFunctionSize at hsize ⊢; omega), if_pos hb]
    · have hsplit : a.buf ++ op :: intToLE32 (lab.offset - (a.size : Int))
          = (a.buf ++ [op]) ++ (intToLE32 (lab.offset - (a.size : Int)) ++ []) := by
        simp
      have hlen2 : (a.buf ++ [op]).length = a.size + 1 := by
        simp [hlen]
      unfold readI32
      have : readLE 4 (a.buf ++ op :: intToLE32 (lab.offset - (a.size : Int))) (a.size + 1)
          = readLEAux 4 (intToLE32 (lab.offset - (a.size : Int)) ++ []) := by
        rw [hsplit, ← hlen2]
        exact readLE_append_exact _ _ 4
      rw [this]
      set v : Int := lab.offset - (a.size : Int) with hv
      have hmod : (v % (2 ^ 32 : Int)).toNat < 256 ^ 4 := by
        have h0 : (0 : Int) ≤ v % (2 ^ 32 : Int) := Int.emod_nonneg v (by norm_num)
        have hlt : v % (2 ^ 32 : Int) < 2 ^ 32 := Int.emod_lt_of_pos v (by norm_num)
        omega
      rw [show intToLE32 v = writeLE 4 ((v % (2 ^ 32 : Int)).toNat) from rfl]
      rw [readLEAux_writeLE 4 _ [] hmod]
      rcases le_or_lt 0 v with hvpos | hvneg
      · have : v % (2 ^ 32 : Int) = v := Int.emod_eq_of_lt hvpos (by omega)
        rw [this]
        have hvn : v.toNat < 2 ^ 31 := by omega
        simp [hvn]
        omega
      · have : v % (2 ^ 32 : Int) = v + 2 ^ 32 := by
          have h0 : (0 : Int) ≤ v % (2 ^ 32 : Int) := Int.emod_nonneg v (by norm_num)
          have hlt : v % (2 ^ 32 : Int) < 2 ^ 32 := Int.emod_lt_of_pos v (by norm_num)
          omega
        rw [this]
        have hge : ¬((v + 2 ^ 32).toNat < 2 ^ 31) := by omega
        simp [hge]
        omega
  · intro us hb hchain
    have hsz31 : a.size < 2 ^ 31 := by
      unfold kMaxFunctionSize at hsize
      omega
    have hfuel : us.length < a.size + 2 := by
      rcases us with _ | ⟨u, us2⟩
      · simp only [List.length_nil]
        omega
      · have hho := LabelChain_head_eq a.buf lab.offset u us2 hchain
        have hle := LabelChain_head_le a.buf lab.offset u us2 hchain
        rw [hho] at hchain
        have hlb := LabelChain_length_bound a.buf (u : Int) (u :: us2) hchain
        simp only [Int.toNat_ofNat, List.length_cons] at hlb
        simp only [List.length_cons]
        omega
    obtain ⟨buf2, hloop, _, hreads, _⟩ :=
      asmBindLoop_patches ((a.size : Int)) a.size rfl hsz31 us a.buf lab.offset
        (a.size + 2) hchain hlen hfuel
    refine ⟨({ a with buf := buf2 }, { offset := (a.size : Int), bound := true }), ?_, ?_⟩
    · unfold asmBind
      rw [if_neg (by rw [hb]; simp)]
      rw [hloop]
    · exact hreads

/-- Assembler state after two forward branches to the same unbound label:
`b lab` at offset 0 (immediate holds the chain end 0) and `b lab` at
offset 5 (immediate holds the previous use offset 1). -/
def asmC9 : AsmBuf := { buf := [4, 0, 0, 0, 0, 4, 1, 0, 0, 0], size := 10 }

/-- The label after those two uses: unbound, head of the use list at
immediate offset 6. -/
def labC9 : AsmLabel := { offset := 6, bound := false }

theorem labelChainC9 : LabelChain asmC9.buf 6 [6, 1] := by
  have h1 : readI32 asmC9.buf 6 = (1 : Int) := by decide
  have h0 : readI32 asmC9.buf 1 = (0 : Int) := by decide
  have hc1 : LabelChain asmC9.buf (readI32 asmC9.buf 1) [] := by
    rw [h0]; exact LabelChain.nil
  have hc2 : LabelChain asmC9.buf (1 : Int) [1] :=
    LabelChain.cons 1 [] (by norm_num) (by decide) (by simp) hc1
  have hc3 : LabelChain asmC9.buf (readI32 asmC9.buf 6) [1] := by
    rw [h1]; exact hc2
  have := @LabelChain.cons asmC9.buf 6 [1] (by norm_num) (by decide)
    (by intro v hv; simp at hv; omega) hc3
  exact this

/-- Witness for C9: binding the label of `asmC9` at offset 10 patches both
forward-branch immediates to `10 - 0` and `10 - 5`. -/
theorem assembler_branch_offset_correct_witness :
    asmC9.buf.length = asmC9.size ∧ asmC9.size + 5 ≤ kMaxFunctionSize ∧
      ∃ r, asmBind asmC9 labC9 = Except.ok r ∧
        ∀ u ∈ [6, 1], readI32 r.1.buf u = (asmC9.size : Int) - ((u : Int) - 1) := by
  refine ⟨rfl, by decide, ?_⟩
  exact (assembler_branch_offset_correct asmC9 labC9 4 rfl (by decide)).2
    [6, 1] rfl labelChainC9

/-! ## C3: Package binary round-trip (package.cpp: writeToFile, readFromFile,
functionByIndexLocked, stringByIndexLocked)

A materialized package is a list of functions; each function is a name (byte
string), parameter and return type lists, instruction bytes, and safepoint
data (frame size plus raw bytes).  `writeToFile` lays out a file header,
three section headers, the function section (fixed-size entries followed by
the per-function instruction and safepoint blobs), the type section, and the
string section (entries followed by the deduplicated string blob).
`readFromFile` validates the headers; `functionByIndex` then materializes a
function by reading its entry and copying its bytes back out.

The `FunctionEntry` declaration with the safepoint fields is not part of the
checked-in headers (the in-tree package.h is an older revision); its field
widths are modelled from the spec, section 6.1: nameIndex u32,
paramTypeOffset u64, paramTypeCount u32, returnTypeOffset u64,
returnTypeCount u32, instOffset u64, instSize u32, safepointOffset u64,
safepointCount u32, frameSize u16 — 54 bytes, matching the readBin/writeBin
sequence in readFunctionEntry/writeFunctionEntry.

`narrow<uint32_t>` in the writer throws when a count does not fit; the model
writes the truncated value, and the round-trip theorem assumes the
`packageFileWF` bounds under which narrowing is exact. -/

/-- Byte values of `Type::Kind`: UNIT = 0, BOOL = 1, INT64 = 2 (package/type.h). -/
def typeKindByte : TypeK → Nat
  | TypeK.unit => 0
  | TypeK.bool => 1
  | TypeK.int64 => 2

/-- Model of `Package::readType` decoding of one kind byte. -/
def decodeTypeKind (b : Nat) : Except String TypeK :=
  match b with
  | 0 => Except.ok TypeK.unit
  | 1 => Except.ok TypeK.bool
  | 2 => Except.ok TypeK.int64
  | _ => Except.error "unknown type kind"

/-- A materialized function. -/
structure FunctionM where
  name : List Nat
  paramTypes : List TypeK
  returnTypes : List TypeK
  insts : List Nat
  spFrameSize : Nat
  spData : List Nat
deriving Repr, DecidableEq

instance : Inhabited FunctionM := ⟨⟨[], [], [], [], 0, []⟩⟩

/-- The deduplicated string table built by `writeToFile`: every function
name, in first-occurrence order. -/
def stringList (fns : List FunctionM) : List (List Nat) :=
  fns.foldl (fun acc f => if f.name ∈ acc then acc else acc ++ [f.name]) []

/-- Index of a string in the table (`stringIndex->get`). -/
def indexOfName (s : List Nat) : List (List Nat) → Nat
  | [] => 0
  | x :: xs => if x = s then 0 else indexOfName s xs + 1

/-- The type blob contributed by one function: its parameter kinds followed
by its return kinds. -/
def typeBytesOf (f : FunctionM) : List Nat :=
  f.paramTypes.map typeKindByte ++ f.returnTypes.map typeKindByte

/-- The instruction-plus-safepoint blob contributed by one function. -/
def funcDataOf (f : FunctionM) : List Nat := f.insts ++ f.spData

/-- Byte offset of function `i`'s parameter types inside the type section
blob. -/
def paramTypeOffsetOf (fns : List FunctionM) (i : Nat) : Nat :=
  ((fns.take i).map typeBytesOf).flatten.length

/-- Byte offset of function `i`'s return types inside the type section
blob. -/
def returnTypeOffsetOf (fns : List FunctionM) (i : Nat) : Nat :=
  paramTypeOffsetOf fns i + (fns.getD i default).paramTypes.length

/-- Byte offset of function `i`'s instructions inside the function data
blob. -/
def instOffsetOf (fns : List FunctionM) (i : Nat) : Nat :=
  ((fns.take i).map funcDataOf).flatten.length

/-- Byte offset of function `i`'s safepoint data inside the function data
blob. -/
def spOffsetOf (fns : List FunctionM) (i : Nat) : Nat :=
  instOffsetOf fns i + (fns.getD i default).insts.length

/-- `Safepoints::length()`: the stored safepoint count. -/
def spCountOf (f : FunctionM) : Nat :=
  f.spData.length / spBytesPerEntry f.spFrameSize

/-- kMagic = 0x50575343 (CSWP). -/
def kMagicW : Nat := 0x50575343

def kFileHeaderSizeW : Nat := 8
def kSectionHeaderSizeW : Nat := 28

/-- kFunctionEntrySize for the FunctionEntry with safepoint fields.
Modelled from the spec: the ten fields of section 6.1 total 54 bytes. -/
def kFunctionEntrySizeW : Nat := 54

def kStringEntrySizeW : Nat := 16

/-- Serialized FileHeader: magic u32, version u8, wordSize u8,
sectionCount u16. -/
def fileHeaderBytes : List Nat :=
  writeLE 4 kMagicW ++ writeLE 1 0 ++ writeLE 1 8 ++ writeLE 2 3

/-- Serialized SectionHeader: kind u32, offset u64, size u64,
entryCount u32, entrySize u32. -/
def sectionHeaderBytes (kind offset size entryCount entrySize : Nat) : List Nat :=
  writeLE 4 kind ++ writeLE 8 offset ++ writeLE 8 size ++
    writeLE 4 entryCount ++ writeLE 4 entrySize

/-- Serialized FunctionEntry for function `i`. -/
def functionEntryBytes (fns : List FunctionM) (i : Nat) : List Nat :=
  let f := fns.getD i default
  writeLE 4 (indexOfName f.name (stringList fns)) ++
    writeLE 8 (paramTypeOffsetOf fns i) ++ writeLE 4 f.paramTypes.length ++
    writeLE 8 (returnTypeOffsetOf fns i) ++ writeLE 4 f.returnTypes.length ++
    writeLE 8 (instOffsetOf fns i) ++ writeLE 4 f.insts.length ++
    writeLE 8 (spOffsetOf fns i) ++ writeLE 4 (spCountOf f) ++
    writeLE 2 f.spFrameSize

/-- Serialized StringEntry for table index `k`: offset u64, size u64. -/
def stringEntryBytes (sl : List (List Nat)) (k : Nat) : List Nat :=
  writeLE 8 ((sl.take k).flatten.length) ++ writeLE 8 ((sl.getD k []).length)

/-- The function section size: entries plus the function data blob. -/
def functionSectionSizeOf (fns : List FunctionM) : Nat :=
  fns.length * kFunctionEntrySizeW + ((fns.map funcDataOf).flatten).length

/-- The type section size. -/
def typeSectionSizeOf (fns : List FunctionM) : Nat :=
  ((fns.map typeBytesOf).flatten).length

/-- The string section size: entries plus the deduplicated blob. -/
def stringSectionSizeOf (fns : List FunctionM) : Nat :=
  (stringList fns).length * kStringEntrySizeW + ((stringList fns).flatten).length

def functionSectionOffsetW : Nat := kFileHeaderSizeW + 3 * kSectionHeaderSizeW

def typeSectionOffsetOf (fns : List FunctionM) : Nat :=
  functionSectionOffsetW + functionSectionSizeOf fns

def stringSectionOffsetOf (fns : List FunctionM) : Nat :=
  typeSectionOffsetOf fns + typeSectionSizeOf fns

def fileSizeOf (fns : List FunctionM) : Nat :=
  stringSectionOffsetOf fns + stringSectionSizeOf fns

/-- The function section entries, in index order. -/
def entriesBlock (fns : List FunctionM) : List Nat :=
  ((List.range fns.length).map (functionEntryBytes fns)).flatten

/-- The per-function instruction and safepoint blobs. -/
def funcDataBlock (fns : List FunctionM) : List Nat := (fns.map funcDataOf).flatten

/-- The type section blob. -/
def typeDataBlock (fns : List FunctionM) : List Nat := (fns.map typeBytesOf).flatten

/-- The string section entries. -/
def strEntriesBlock (fns : List FunctionM) : List Nat :=
  ((List.range (stringList fns).length).map (stringEntryBytes (stringList fns))).flatten

/-- The deduplicated string blob. -/
def strDataBlock (fns : List FunctionM) : List Nat := (stringList fns).flatten

/-- Model of `Package::writeToFile`: the bytes of the produced file. -/
def writeToFileM (fns : List FunctionM) : List Nat :=
  fileHeaderBytes ++
    sectionHeaderBytes 1 functionSectionOffsetW (functionSectionSizeOf fns)
      fns.length kFunctionEntrySizeW ++
    sectionHeaderBytes 2 (typeSectionOffsetOf fns) (typeSectionSizeOf fns) 0 0 ++
    sectionHeaderBytes 3 (stringSectionOffsetOf fns) (stringSectionSizeOf fns)
      (stringList fns).length kStringEntrySizeW ++
    entriesBlock fns ++ funcDataBlock fns ++ typeDataBlock fns ++
    strEntriesBlock fns ++ strDataBlock fns

/-- A parsed section header. -/
structure SectionHeaderM where
  kind : Nat
  offset : Nat
  size : Nat
  entryCount : Nat
  entrySize : Nat
deriving Repr, DecidableEq

/-- The zero-initialized `SectionHeader{}`. -/
def shZero : SectionHeaderM := ⟨0, 0, 0, 0, 0⟩

/-- Model of `Package::readSectionHeader` at byte position `pos`. -/
def readSectionHeaderM (file : List Nat) (pos : Nat) : SectionHeaderM :=
  { kind := readLE 4 file pos
    offset := readLE 8 file (pos + 4)
    size := readLE 8 file (pos + 12)
    entryCount := readLE 4 file (pos + 20)
    entrySize := readLE 4 file (pos + 24) }

/-- The section-header loop of `Package::readFromFile`, with all its
validity checks. -/
def readSectionsM (file : List Nat) :
    Nat → Nat → Nat → SectionHeaderM → SectionHeaderM → SectionHeaderM →
    Except String (SectionHeaderM × SectionHeaderM × SectionHeaderM × Nat)
  | 0, _, prevEnd, fS, tS, sS => Except.ok (fS, tS, sS, prevEnd)
  | count + 1, pos, prevEnd, fS, tS, sS =>
    let sh := readSectionHeaderM file pos
    if sh.entryCount * sh.entrySize > sh.size then
      Except.error "data offset is out of bounds"
    else if sh.offset ≠ prevEnd then
      Except.error "section is not immediately after previous section"
    else if 2 ^ 64 - 1 - sh.size < prevEnd then
      Except.error "overflow computing end offset of section"
    else
      match sh.kind with
      | 1 =>
        if sh.entrySize < kFunctionEntrySizeW then
          Except.error "function section entries are too small"
        else if fS.offset > 0 then Except.error "duplicate function section"
        else readSectionsM file count (pos + 28) (prevEnd + sh.size) sh tS sS
      | 2 =>
        if tS.offset > 0 then Except.error "duplicate type section"
        else readSectionsM file count (pos + 28) (prevEnd + sh.size) fS sh sS
      | 3 =>
        if sh.entrySize < kStringEntrySizeW then
          Except.error "string section entries are too small"
        else if sS.offset > 0 then Except.error "duplicate string section"
        else readSectionsM file count (pos + 28) (prevEnd + sh.size) fS tS sh
      | _ => readSectionsM file count (pos + 28) (prevEnd + sh.size) fS tS sS

/-- A parsed package: the mapped file and its three recorded section
headers (the function, type and string lists start out null and are
materialized on demand). -/
structure PackageM where
  file : List Nat
  functionSection : SectionHeaderM
  typeSection : SectionHeaderM
  stringSection : SectionHeaderM

/-- Model of `Package::readFromFile`. -/
def readFromFileM (file : List Nat) : Except String PackageM :=
  if file.length < kFileHeaderSizeW then
    Except.error "file is too small to contain file header"
  else if readLE 4 file 0 ≠ kMagicW then
    Except.error "unknown package file format"
  else if readLE 1 file 4 ≠ 0 then
    Except.error "unknown version of codeswitch package format"
  else if readLE 1 file 5 ≠ 8 then
    Except.error "unsupported word size"
  else if kFileHeaderSizeW + readLE 2 file 6 * kSectionHeaderSizeW > file.length then
    Except.error "file is too small to contain section headers"
  else
    match readSectionsM file (readLE 2 file 6) kFileHeaderSizeW
        (kFileHeaderSizeW + readLE 2 file 6 * kSectionHeaderSizeW)
        shZero shZero shZero with
    | Except.error e => Except.error e
    | Except.ok (fS, tS, sS, prevEnd) =>
      if prevEnd ≠ file.length then Except.error "unexpected space at end of file"
      else Except.ok { file := file, functionSection := fS, typeSection := tS,
                       stringSection := sS }

/-- A byte range of the file (the copies `std::copy` makes). -/
def sliceL (l : List Nat) (off len : Nat) : List Nat := (l.drop off).take len

/-- Model of `Package::stringByIndexLocked`. -/
def stringByIndexM (p : PackageM) (index : Nat) : Except String (List Nat) :=
  let pos := p.stringSection.offset + index * p.stringSection.entrySize
  let off := readLE 8 p.file pos
  let size := readLE 8 p.file (pos + 8)
  let dataBegin := p.stringSection.offset +
    p.stringSection.entryCount * p.stringSection.entrySize + off
  if dataBegin + size > p.stringSection.offset + p.stringSection.size then
    Except.error "end of string outside string section"
  else Except.ok (sliceL p.file dataBegin size)

/-- Model of `Package::readType`: one kind byte, bounds-checked against the
type section end. -/
def readTypeM (file : List Nat) (pos endPos : Nat) : Except String TypeK :=
  if pos ≥ endPos then Except.error "type outside of type section"
  else decodeTypeKind (readLE 1 file pos)

/-- Model of `Package::readTypeList`: `count` consecutive kind bytes. -/
def readTypeListM (file : List Nat) (endPos : Nat) :
    Nat → Nat → Except String (List TypeK)
  | _, 0 => Except.ok []
  | pos, count + 1 =>
    match readTypeM file pos endPos with
    | Except.error e => Except.error e
    | Except.ok t =>
      match readTypeListM file endPos (pos + 1) count with
      | Except.error e => Except.error e
      | Except.ok ts => Except.ok (t :: ts)

/-- Model of `Package::functionByIndexLocked`: parse the function entry,
resolve the name, read the type lists, and copy the instruction and
safepoint bytes out of the mapped file. -/
def functionByIndexM (p : PackageM) (index : Nat) : Except String FunctionM :=
  let epos := p.functionSection.offset + index * p.functionSection.entrySize
  let nameIndex := readLE 4 p.file epos
  let paramTypeOffset := readLE 8 p.file (epos + 4)
  let paramTypeCount := readLE 4 p.file (epos + 12)
  let returnTypeOffset := readLE 8 p.file (epos + 16)
  let returnTypeCount := readLE 4 p.file (epos + 24)
  let instOffset := readLE 8 p.file (epos + 28)
  let instSize := readLE 4 p.file (epos + 36)
  let safepointOffset := readLE 8 p.file (epos + 40)
  let safepointCount := readLE 4 p.file (epos + 48)
  let frameSize := readLE 2 p.file (epos + 52)
  match stringByIndexM p nameIndex with
  | Except.error e => Except.error e
  | Except.ok name =>
    let tBase := p.typeSection.offset + p.typeSection.entryCount * p.typeSection.entrySize
    let tEnd := p.typeSection.offset + p.typeSection.size
    match readTypeListM p.file tEnd (tBase + paramTypeOffset) paramTypeCount with
    | Except.error e => Except.error e
    | Except.ok paramTypes =>
      match readTypeListM p.file tEnd (tBase + returnTypeOffset) returnTypeCount with
      | Except.error e => Except.error e
      | Except.ok returnTypes =>
        let dataBase := p.functionSection.offset +
          p.functionSection.entryCount * p.functionSection.entrySize
        let fEnd := p.functionSection.offset + p.functionSection.size
        if dataBase + instOffset + instSize > fEnd then
          Except.error "end of instructions outside function section"
        else
          let spSize := spBytesPerEntry frameSize * safepointCount
          if dataBase + safepointOffset + spSize > fEnd then
            Except.error "end of safepoints outside function section"
          else
            Except.ok { name := name, paramTypes := paramTypes,
                        returnTypes := returnTypes,
                        insts := sliceL p.file (dataBase + instOffset) instSize,
                        spFrameSize := frameSize,
                        spData := sliceL p.file (dataBase + safepointOffset) spSize }

/-- Bounds under which every `narrow` in the writer succeeds and every
stored field is written exactly. -/
def packageFileWF (fns : List FunctionM) : Prop :=
  fns.length < 2 ^ 32 ∧
  (stringList fns).length < 2 ^ 32 ∧
  fileSizeOf fns < 2 ^ 32 ∧
  ∀ f ∈ fns, f.paramTypes.length < 2 ^ 32 ∧ f.returnTypes.length < 2 ^ 32 ∧
    f.insts.length < 2 ^ 32 ∧ spCountOf f < 2 ^ 32 ∧ f.spFrameSize < 2 ^ 16

/-! ### Extraction toolkit for the round-trip proof -/

theorem readLE_skip (a rest : List Nat) (w off : Nat) (h : a.length ≤ off) :
    readLE w (a ++ rest) off = readLE w rest (off - a.length) := by
  have heq := readLE_append_right a rest w (off - a.length)
  have harg : a.length + (off - a.length) = off := by omega
  rw [harg] at heq
  exact heq

theorem readLE_start (w v : Nat) (rest : List Nat) (hv : v < 256 ^ w) :
    readLE w (writeLE w v ++ rest) 0 = v := by
  show readLEAux w ((writeLE w v ++ rest).drop 0) = v
  simp only [List.drop_zero]
  exact readLEAux_writeLE w v rest hv

theorem take_append_exact {α : Type} (a b : List α) : (a ++ b).take a.length = a := by
  induction a with
  | nil => simp
  | cons x xs ih => simp [ih]

theorem drop_append_exact {α : Type} (a b : List α) : (a ++ b).drop a.length = b := by
  have h := drop_append_length a b 0
  simp only [Nat.add_zero, List.drop_zero] at h
  exact h

theorem sliceL_skip (a rest : List Nat) (off len : Nat) (h : a.length ≤ off) :
    sliceL (a ++ rest) off len = sliceL rest (off - a.length) len := by
  unfold sliceL
  have hdrop : (a ++ rest).drop off = rest.drop (off - a.length) := by
    have harg : off = a.length + (off - a.length) := by omega
    rw [harg, drop_append_length]
    congr 1
    omega
  rw [hdrop]

theorem sliceL_start (mid rest : List Nat) :
    sliceL (mid ++ rest) 0 mid.length = mid := by
  unfold sliceL
  simp only [List.drop_zero]
  exact take_append_exact mid rest

theorem fileHeaderBytes_length : fileHeaderBytes.length = 8 := by
  simp [fileHeaderBytes, writeLE_length]

theorem sectionHeaderBytes_length (kind offset size entryCount entrySize : Nat) :
    (sectionHeaderBytes kind offset size entryCount entrySize).length = 28 := by
  simp [sectionHeaderBytes, writeLE_length]

theorem functionEntryBytes_length (fns : List FunctionM) (i : Nat) :
    (functionEntryBytes fns i).length = 54 := by
  simp [functionEntryBytes, writeLE_length]

theorem stringEntryBytes_length (sl : List (List Nat)) (k : Nat) :
    (stringEntryBytes sl k).length = 16 := by
  simp [stringEntryBytes, writeLE_length]

theorem flatten_length_const {α : Type} (g : α → List Nat) (c : Nat) :
    ∀ ls : List α, (∀ x ∈ ls, (g x).length = c) →
      ((ls.map g).flatten).length = ls.length * c := by
  intro ls
  induction ls with
  | nil => intro _; simp
  | cons x xs ih =>
    intro h
    simp only [List.map_cons, List.flatten_cons, List.length_append, List.length_cons]
    rw [h x (by simp), ih (fun y hy => h y (by simp [hy]))]
    ring

theorem flatten_split (ls : List (List Nat)) :
    ∀ i, i < ls.length →
      ls.flatten = (ls.take i).flatten ++ ((ls.getD i []) ++ ((ls.drop (i + 1)).flatten)) := by
  induction ls with
  | nil => intro i h; simp at h
  | cons x xs ih =>
    intro i h
    cases i with
    | zero => simp [List.getD]
    | succ j =>
      have h2 : j < xs.length := by simpa using h
      have := ih j h2
      simp only [List.flatten_cons, List.take_succ_cons, List.drop_succ_cons]
      rw [this]
      simp [List.getD]

theorem flatten_prefix_le (ls : List (List Nat)) (i : Nat) (h : i < ls.length) :
    ((ls.take i).flatten).length + ((ls.getD i []).length) ≤ (ls.flatten).length := by
  rw [flatten_split ls i h]
  simp

theorem map_range_take (g : Nat → List Nat) (n i : Nat) (h : i ≤ n) :
    ((List.range n).map g).take i = (List.range i).map g := by
  rw [← List.map_take]
  congr 1
  rw [List.take_range]
  congr 1
  omega

theorem map_range_getD (g : Nat → List Nat) (n i : Nat) (h : i < n) :
    ((List.range n).map g).getD i [] = g i := by
  unfold List.getD
  rw [List.get?_map, List.get?_range h]
  rfl

theorem map_getD_list {α : Type} [Inhabited α] (g : α → List Nat) (ls : List α) (i : Nat)
    (h : i < ls.length) :
    (ls.map g).getD i [] = g (ls.getD i default) := by
  unfold List.getD
  rw [List.get?_map, List.get?_eq_get h]
  simp

theorem map_take_list {α : Type} (g : α → List Nat) (ls : List α) (i : Nat) :
    (ls.map g).take i = (ls.take i).map g := by
  rw [List.map_take]

theorem readLE_one (l : List Nat) (p : Nat) : readLE 1 l p = l.getD p 0 := by
  unfold readLE
  have h := getD_drop_nat l p 0
  simp only [Nat.add_zero] at h
  rw [← h]
  cases hl : l.drop p with
  | nil => simp [readLEAux, List.getD]
  | cons b rest => simp [readLEAux, List.getD]

theorem getD_mem_of_lt (l : List Nat) (q : Nat) (h : q < l.length) : l.getD q 0 ∈ l := by
  induction l generalizing q with
  | nil => simp at h
  | cons x xs ih =>
    cases q with
    | zero => simp [List.getD]
    | succ m =>
      have hm := ih m (by simpa using h)
      rw [List.getD_cons_succ]
      exact List.mem_cons_of_mem x hm

/-! ### String table facts -/

theorem stringList_foldl_mono (fns : List FunctionM) (s : List Nat) :
    ∀ acc : List (List Nat), s ∈ acc →
      s ∈ fns.foldl (fun acc f => if f.name ∈ acc then acc else acc ++ [f.name]) acc := by
  induction fns with
  | nil => intro acc h; exact h
  | cons f fs ih =>
    intro acc h
    simp only [List.foldl_cons]
    apply ih
    by_cases hmem : f.name ∈ acc
    · simpa [hmem] using h
    · simp only [hmem, if_false]
      exact List.mem_append_left _ h

theorem names_mem_foldl (gs : List FunctionM) (f : FunctionM) (h : f ∈ gs) :
    ∀ acc : List (List Nat),
      f.name ∈ gs.foldl (fun acc f => if f.name ∈ acc then acc else acc ++ [f.name]) acc := by
  induction gs with
  | nil => simp at h
  | cons g2 gs2 ih2 =>
    intro acc
    rcases List.mem_cons.mp h with h0 | hs2
    · subst h0
      simp only [List.foldl_cons]
      apply stringList_foldl_mono
      by_cases hmem : f.name ∈ acc
      · simp [hmem]
      · simp [hmem]
    · simp only [List.foldl_cons]
      exact ih2 hs2 _

theorem name_mem_stringList (fns : List FunctionM) (f : FunctionM) (h : f ∈ fns) :
    f.name ∈ stringList fns :=
  names_mem_foldl fns f h []

theorem indexOfName_lt (s : List Nat) (sl : List (List Nat)) (h : s ∈ sl) :
    indexOfName s sl < sl.length := by
  induction sl with
  | nil => simp at h
  | cons x xs ih =>
    by_cases hx : x = s
    · simp [indexOfName, hx]
    · have hs : s ∈ xs := by
        rcases List.mem_cons.mp h with h0 | h1
        · exact absurd h0.symm hx
        · exact h1
      simp only [indexOfName, hx, if_false, List.length_cons]
      have := ih hs
      omega

theorem indexOfName_getD (s : List Nat) (sl : List (List Nat)) (h : s ∈ sl) :
    sl.getD (indexOfName s sl) [] = s := by
  induction sl with
  | nil => simp at h
  | cons x xs ih =>
    by_cases hx : x = s
    · simp [indexOfName, hx, List.getD]
    · have hs : s ∈ xs := by
        rcases List.mem_cons.mp h with h0 | h1
        · exact absurd h0.symm hx
        · exact h1
      simp only [indexOfName, hx, if_false]
      simpa [List.getD] using ih hs

/-! ### Type-byte facts -/

theorem decode_typeKindByte (t : TypeK) : decodeTypeKind (typeKindByte t) = Except.ok t := by
  cases t <;> rfl

theorem typeData_byte_is_kind (fns : List FunctionM) (b : Nat)
    (h : b ∈ ((fns.map typeBytesOf).flatten)) : ∃ t, b = typeKindByte t := by
  rcases List.mem_flatten.mp h with ⟨xs, hxs, hb⟩
  rcases List.mem_map.mp hxs with ⟨f, _, hf⟩
  subst hf
  unfold typeBytesOf at hb
  rcases List.mem_append.mp hb with hp | hr
  · rcases List.mem_map.mp hp with ⟨t, _, ht⟩
    exact ⟨t, ht.symm⟩
  · rcases List.mem_map.mp hr with ⟨t, _, ht⟩
    exact ⟨t, ht.symm⟩

theorem readTypeListM_ok (file : List Nat) (tEnd : Nat) :
    ∀ count pos,
      (∀ j, j < count → pos + j < tEnd ∧ ∃ t, readLE 1 file (pos + j) = typeKindByte t) →
      ∃ ts, readTypeListM file tEnd pos count = Except.ok ts := by
  intro count
  induction count with
  | zero => intro pos _; exact ⟨[], rfl⟩
  | succ c ih =>
    intro pos h
    obtain ⟨hlt, t, ht⟩ := h 0 (by omega)
    simp only [Nat.add_zero] at hlt ht
    obtain ⟨ts, hts⟩ := ih (pos + 1) (fun j hj => by
      have := h (j + 1) (by omega)
      constructor
      · have := this.1; omega
      · obtain ⟨t2, ht2⟩ := this.2
        refine ⟨t2, ?_⟩
        have harg : pos + (j + 1) = pos + 1 + j := by omega
        rw [harg] at ht2
        exact ht2)
    refine ⟨t :: ts, ?_⟩
    unfold readTypeListM readTypeM
    rw [if_neg (by omega), ht, decode_typeKindByte, hts]

theorem pow256_1 : (256 : Nat) ^ 1 = 2 ^ 8 := by norm_num
theorem pow256_2 : (256 : Nat) ^ 2 = 2 ^ 16 := by norm_num
theorem pow256_4 : (256 : Nat) ^ 4 = 2 ^ 32 := by norm_num
theorem pow256_8 : (256 : Nat) ^ 8 = 2 ^ 64 := by norm_num

theorem drop_append_le {α : Type} (a b : List α) (k : Nat) (h : k ≤ a.length) :
    (a ++ b).drop k = a.drop k ++ b := by
  induction a generalizing k with
  | nil =>
    simp at h
    simp [h]
  | cons x xs ih =>
    cases k with
    | zero => simp
    | succ m =>
      show (xs ++ b).drop m = xs.drop m ++ b
      exact ih m (by simpa using h)

/-- Reading inside a component of the file: only the component bytes
matter. -/
theorem readLE_inside (file A comp B : List Nat) (pos w k : Nat)
    (hfile : file = A ++ (comp ++ B)) (hpos : A.length = pos)
    (hk : k + w ≤ comp.length) :
    readLE w file (pos + k) = readLE w comp k := by
  subst hpos
  subst hfile
  rw [readLE_append_right]
  unfold readLE
  rw [drop_append_le comp B k (by omega)]
  apply readLEAux_prefix
  simp only [List.length_drop]
  omega

/-- Copying a sub-range of a component out of the file. -/
theorem sliceL_inside (file A comp B : List Nat) (pos k len : Nat)
    (hfile : file = A ++ (comp ++ B)) (hpos : A.length = pos)
    (hk : k + len ≤ comp.length) :
    sliceL file (pos + k) len = sliceL comp k len := by
  subst hpos
  subst hfile
  unfold sliceL
  have h1 : (A ++ (comp ++ B)).drop (A.length + k) = (comp ++ B).drop k :=
    drop_append_length A (comp ++ B) k
  rw [h1, drop_append_le comp B k (by omega)]
  have h2 : (comp.drop k).length = comp.length - k := by simp
  rw [List.take_append_eq_append_take]
  have h3 : len - (comp.drop k).length = 0 := by omega
  rw [h3]
  simp

/-- A sequence of fixed-width fields, as written by consecutive `writeBin`
calls. -/
def fieldsBytes : List (Nat × Nat) → List Nat
  | [] => []
  | (w, v) :: fs => writeLE w v ++ fieldsBytes fs

theorem readLE_peel_write (wf v : Nat) (rest : List Nat) (w off : Nat) :
    readLE w (writeLE wf v ++ rest) (wf + off) = readLE w rest off := by
  have h := readLE_append_right (writeLE wf v) rest w off
  rw [writeLE_length] at h
  exact h

/-- Reading field `j` of a field sequence at the sum of the preceding
widths. -/
theorem fieldsBytes_read (fs : List (Nat × Nat)) :
    ∀ j, j < fs.length → (fs.getD j (0, 0)).2 < 256 ^ (fs.getD j (0, 0)).1 →
      readLE (fs.getD j (0, 0)).1 (fieldsBytes fs) (((fs.take j).map Prod.fst).sum)
        = (fs.getD j (0, 0)).2 := by
  induction fs with
  | nil => intro j h; simp at h
  | cons p fs ih =>
    intro j hj hb
    cases j with
    | zero =>
      simp only [List.getD_cons_zero] at hb ⊢
      simp only [List.take_zero, List.map_nil, List.sum_nil]
      show readLE p.1 (fieldsBytes (p :: fs)) 0 = p.2
      have hp : fieldsBytes (p :: fs) = writeLE p.1 p.2 ++ fieldsBytes fs := by
        cases p
        rfl
      rw [hp]
      exact readLE_start p.1 p.2 (fieldsBytes fs) hb
    | succ m =>
      simp only [List.getD_cons_succ] at hb ⊢
      simp only [List.take_succ_cons, List.map_cons, List.sum_cons]
      have hp : fieldsBytes (p :: fs) = writeLE p.1 p.2 ++ fieldsBytes fs := by
        cases p
        rfl
      rw [hp, readLE_peel_write]
      exact ih m (by simpa using hj) hb

theorem fieldsBytes_length (fs : List (Nat × Nat)) :
    (fieldsBytes fs).length = (fs.map Prod.fst).sum := by
  induction fs with
  | nil => rfl
  | cons p fs ih =>
    have hp : fieldsBytes (p :: fs) = writeLE p.1 p.2 ++ fieldsBytes fs := by
      cases p
      rfl
    rw [hp]
    simp [writeLE_length, ih]

/-- The four FileHeader fields of a written package file. -/
theorem readFileHeader_fields (file B : List Nat)
    (hfile : file = fileHeaderBytes ++ B) :
    readLE 4 file 0 = kMagicW ∧ readLE 1 file 4 = 0 ∧
      readLE 1 file 5 = 8 ∧ readLE 2 file 6 = 3 := by
  have hcomp : fileHeaderBytes = fieldsBytes [(4, kMagicW), (1, 0), (1, 8), (2, 3)] := by
    simp [fileHeaderBytes, fieldsBytes, List.append_assoc]
  have hflen : fileHeaderBytes.length = 8 := fileHeaderBytes_length
  have hf : file = [] ++ (fileHeaderBytes ++ B) := by simpa using hfile
  have hread : ∀ w k, k + w ≤ 8 → readLE w file k = readLE w fileHeaderBytes k := by
    intro w k hk
    have h := readLE_inside file [] fileHeaderBytes B 0 w k hf rfl (by omega)
    simpa using h
  refine ⟨?_, ?_, ?_, ?_⟩
  · rw [hread 4 0 (by norm_num), hcomp]
    have h := fieldsBytes_read [(4, kMagicW), (1, 0), (1, 8), (2, 3)] 0 (by norm_num)
      (by rw [List.getD_cons_zero]; rw [show ((4 : Nat), kMagicW).2 = kMagicW from rfl]
          unfold kMagicW; norm_num)
    simpa using h
  · rw [hread 1 4 (by norm_num), hcomp]
    have h := fieldsBytes_read [(4, kMagicW), (1, 0), (1, 8), (2, 3)] 1 (by norm_num)
      (by norm_num [List.getD])
    simpa using h
  · rw [hread 1 5 (by norm_num), hcomp]
    have h := fieldsBytes_read [(4, kMagicW), (1, 0), (1, 8), (2, 3)] 2 (by norm_num)
      (by norm_num [List.getD])
    simpa using h
  · rw [hread 2 6 (by norm_num), hcomp]
    have h := fieldsBytes_read [(4, kMagicW), (1, 0), (1, 8), (2, 3)] 3 (by norm_num)
      (by norm_num [List.getD])
    simpa using h

/-- Parsing a SectionHeader embedded in the file. -/
theorem readSectionHeaderM_of_split (file A B : List Nat)
    (pos kind offset size entryCount entrySize : Nat)
    (hfile : file = A ++ (sectionHeaderBytes kind offset size entryCount entrySize ++ B))
    (hpos : A.length = pos)
    (hk : kind < 2 ^ 32) (ho : offset < 2 ^ 64) (hs : size < 2 ^ 64)
    (hc : entryCount < 2 ^ 32) (he : entrySize < 2 ^ 32) :
    readSectionHeaderM file pos = ⟨kind, offset, size, entryCount, entrySize⟩ := by
  have hcomp : sectionHeaderBytes kind offset size entryCount entrySize
      = fieldsBytes [(4, kind), (8, offset), (8, size), (4, entryCount), (4, entrySize)] := by
    simp [sectionHeaderBytes, fieldsBytes, List.append_assoc]
  have hread : ∀ w k, k + w ≤ 28 →
      readLE w file (pos + k)
        = readLE w (sectionHeaderBytes kind offset size entryCount entrySize) k := by
    intro w k hkk
    exact readLE_inside file A _ B pos w k hfile hpos
      (by rw [sectionHeaderBytes_length]; omega)
  unfold readSectionHeaderM
  have f1 : readLE 4 file pos = kind := by
    have hp := hread 4 0 (by norm_num)
    simp only [Nat.add_zero] at hp
    rw [hp, hcomp]
    have h := fieldsBytes_read [(4, kind), (8, offset), (8, size), (4, entryCount),
      (4, entrySize)] 0 (by norm_num) (by simp only [List.getD_cons_zero]; rw [pow256_4]; exact hk)
    simpa using h
  have f2 : readLE 8 file (pos + 4) = offset := by
    rw [hread 8 4 (by norm_num), hcomp]
    have h := fieldsBytes_read [(4, kind), (8, offset), (8, size), (4, entryCount),
      (4, entrySize)] 1 (by norm_num)
      (by simp only [List.getD_cons_succ, List.getD_cons_zero]; rw [pow256_8]; exact ho)
    simpa using h
  have f3 : readLE 8 file (pos + 12) = size := by
    rw [hread 8 12 (by norm_num), hcomp]
    have h := fieldsBytes_read [(4, kind), (8, offset), (8, size), (4, entryCount),
      (4, entrySize)] 2 (by norm_num)
      (by simp only [List.getD_cons_succ, List.getD_cons_zero]; rw [pow256_8]; exact hs)
    simpa using h
  have f4 : readLE 4 file (pos + 20) = entryCount := by
    rw [hread 4 20 (by norm_num), hcomp]
    have h := fieldsBytes_read [(4, kind), (8, offset), (8, size), (4, entryCount),
      (4, entrySize)] 3 (by norm_num)
      (by simp only [List.getD_cons_succ, List.getD_cons_zero]; rw [pow256_4]; exact hc)
    simpa using h
  have f5 : readLE 4 file (pos + 24) = entrySize := by
    rw [hread 4 24 (by norm_num), hcomp]
    have h := fieldsBytes_read [(4, kind), (8, offset), (8, size), (4, entryCount),
      (4, entrySize)] 4 (by norm_num)
      (by simp only [List.getD_cons_succ, List.getD_cons_zero]; rw [pow256_4]; exact he)
    simpa using h
  rw [f1, f2, f3, f4, f5]

/-- Parsing the ten fields of a FunctionEntry embedded in the file. -/
theorem functionEntry_reads (file A B : List Nat) (fns : List FunctionM) (i pos : Nat)
    (hfile : file = A ++ (functionEntryBytes fns i ++ B))
    (hpos : A.length = pos)
    (h1 : indexOfName (fns.getD i default).name (stringList fns) < 2 ^ 32)
    (h2 : paramTypeOffsetOf fns i < 2 ^ 64)
    (h3 : (fns.getD i default).paramTypes.length < 2 ^ 32)
    (h4 : returnTypeOffsetOf fns i < 2 ^ 64)
    (h5 : (fns.getD i default).returnTypes.length < 2 ^ 32)
    (h6 : instOffsetOf fns i < 2 ^ 64)
    (h7 : (fns.getD i default).insts.length < 2 ^ 32)
    (h8 : spOffsetOf fns i < 2 ^ 64)
    (h9 : spCountOf (fns.getD i default) < 2 ^ 32)
    (h10 : (fns.getD i default).spFrameSize < 2 ^ 16) :
    readLE 4 file pos = indexOfName (fns.getD i default).name (stringList fns) ∧
    readLE 8 file (pos + 4) = paramTypeOffsetOf fns i ∧
    readLE 4 file (pos + 12) = (fns.getD i default).paramTypes.length ∧
    readLE 8 file (pos + 16) = returnTypeOffsetOf fns i ∧
    readLE 4 file (pos + 24) = (fns.getD i default).returnTypes.length ∧
    readLE 8 file (pos + 28) = instOffsetOf fns i ∧
    readLE 4 file (pos + 36) = (fns.getD i default).insts.length ∧
    readLE 8 file (pos + 40) = spOffsetOf fns i ∧
    readLE 4 file (pos + 48) = spCountOf (fns.getD i default) ∧
    readLE 2 file (pos + 52) = (fns.getD i default).spFrameSize := by
  set f := fns.getD i default with hfdef
  set fs : List (Nat × Nat) :=
    [(4, indexOfName f.name (stringList fns)), (8, paramTypeOffsetOf fns i),
     (4, f.paramTypes.length), (8, returnTypeOffsetOf fns i),
     (4, f.returnTypes.length), (8, instOffsetOf fns i), (4, f.insts.length),
     (8, spOffsetOf fns i), (4, spCountOf f), (2, f.spFrameSize)] with hfs
  have hcomp : functionEntryBytes fns i = fieldsBytes fs := by
    rw [hfs]
    simp only [functionEntryBytes, fieldsBytes, ← hfdef]
    simp [List.append_assoc]
  have hread : ∀ w k, k + w ≤ 54 →
      readLE w file (pos + k) = readLE w (functionEntryBytes fns i) k := by
    intro w k hkk
    exact readLE_inside file A _ B pos w k hfile hpos
      (by rw [functionEntryBytes_length]; omega)
  refine ⟨?_, ?_, ?_, ?_, ?_, ?_, ?_, ?_, ?_, ?_⟩
  · have hp := hread 4 0 (by norm_num)
    simp only [Nat.add_zero] at hp
    rw [hp, hcomp]
    have h := fieldsBytes_read fs 0 (by rw [hfs]; norm_num)
      (by rw [hfs]; simp only [List.getD_cons_zero]; rw [pow256_4]; exact h1)
    rw [hfs] at h
    simpa using h
  · rw [hread 8 4 (by norm_num), hcomp]
    have h := fieldsBytes_read fs 1 (by rw [hfs]; norm_num)
      (by rw [hfs]; simp only [List.getD_cons_succ, List.getD_cons_zero]
          rw [pow256_8]; exact h2)
    rw [hfs] at h
    simpa using h
  · rw [hread 4 12 (by norm_num), hcomp]
    have h := fieldsBytes_read fs 2 (by rw [hfs]; norm_num)
      (by rw [hfs]; simp only [List.getD_cons_succ, List.getD_cons_zero]
          rw [pow256_4]; exact h3)
    rw [hfs] at h
    simpa using h
  · rw [hread 8 16 (by norm_num), hcomp]
    have h := fieldsBytes_read fs 3 (by rw [hfs]; norm_num)
      (by rw [hfs]; simp only [List.getD_cons_succ, List.getD_cons_zero]
          rw [pow256_8]; exact h4)
    rw [hfs] at h
    simpa using h
  · rw [hread 4 24 (by norm_num), hcomp]
    have h := fieldsBytes_read fs 4 (by rw [hfs]; norm_num)
      (by rw [hfs]; simp only [List.getD_cons_succ, List.getD_cons_zero]
          rw [pow256_4]; exact h5)
    rw [hfs] at h
    simpa using h
  · rw [hread 8 28 (by norm_num), hcomp]
    have h := fieldsBytes_read fs 5 (by rw [hfs]; norm_num)
      (by rw [hfs]; simp only [List.getD_cons_succ, List.getD_cons_zero]
          rw [pow256_8]; exact h6)
    rw [hfs] at h
    simpa using h
  · rw [hread 4 36 (by norm_num), hcomp]
    have h := fieldsBytes_read fs 6 (by rw [hfs]; norm_num)
      (by rw [hfs]; simp only [List.getD_cons_succ, List.getD_cons_zero]
          rw [pow256_4]; exact h7)
    rw [hfs] at h
    simpa using h
  · rw [hread 8 40 (by norm_num), hcomp]
    have h := fieldsBytes_read fs 7 (by rw [hfs]; norm_num)
      (by rw [hfs]; simp only [List.getD_cons_succ, List.getD_cons_zero]
          rw [pow256_8]; exact h8)
    rw [hfs] at h
    simpa using h
  · rw [hread 4 48 (by norm_num), hcomp]
    have h := fieldsBytes_read fs 8 (by rw [hfs]; norm_num)
      (by rw [hfs]; simp only [List.getD_cons_succ, List.getD_cons_zero]
          rw [pow256_4]; exact h9)
    rw [hfs] at h
    simpa using h
  · rw [hread 2 52 (by norm_num), hcomp]
    have h := fieldsBytes_read fs 9 (by rw [hfs]; norm_num)
      (by rw [hfs]; simp only [List.getD_cons_succ, List.getD_cons_zero]
          rw [pow256_2]; exact h10)
    rw [hfs] at h
    simpa using h

/-- Parsing a StringEntry embedded in the file. -/
theorem stringEntry_reads (file A B : List Nat) (sl : List (List Nat)) (k pos : Nat)
    (hfile : file = A ++ (stringEntryBytes sl k ++ B))
    (hpos : A.length = pos)
    (ho : ((sl.take k).flatten).length < 2 ^ 64)
    (hs : ((sl.getD k []).length) < 2 ^ 64) :
    readLE 8 file pos = ((sl.take k).flatten).length ∧
      readLE 8 file (pos + 8) = (sl.getD k []).length := by
  have hcomp : stringEntryBytes sl k
      = fieldsBytes [(8, ((sl.take k).flatten).length), (8, (sl.getD k []).length)] := by
    simp [stringEntryBytes, fieldsBytes, List.append_assoc]
  have hread : ∀ w j, j + w ≤ 16 →
      readLE w file (pos + j) = readLE w (stringEntryBytes sl k) j := by
    intro w j hkk
    exact readLE_inside file A _ B pos w j hfile hpos
      (by rw [stringEntryBytes_length]; omega)
  constructor
  · have hp := hread 8 0 (by norm_num)
    simp only [Nat.add_zero] at hp
    rw [hp, hcomp]
    have h := fieldsBytes_read [(8, ((sl.take k).flatten).length),
      (8, (sl.getD k []).length)] 0 (by norm_num)
      (by simp only [List.getD_cons_zero]; rw [pow256_8]; exact ho)
    simpa using h
  · rw [hread 8 8 (by norm_num), hcomp]
    have h := fieldsBytes_read [(8, ((sl.take k).flatten).length),
      (8, (sl.getD k []).length)] 1 (by norm_num)
      (by simp only [List.getD_cons_succ, List.getD_cons_zero]; rw [pow256_8]; exact hs)
    simpa using h

theorem entriesBlock_length (fns : List FunctionM) :
    (entriesBlock fns).length = fns.length * 54 := by
  unfold entriesBlock
  rw [flatten_length_const (functionEntryBytes fns) 54 (List.range fns.length)
    (fun x _ => functionEntryBytes_length fns x)]
  simp

theorem strEntriesBlock_length (fns : List FunctionM) :
    (strEntriesBlock fns).length = (stringList fns).length * 16 := by
  unfold strEntriesBlock
  rw [flatten_length_const (stringEntryBytes (stringList fns)) 16 (List.range (stringList fns).length)
    (fun x _ => stringEntryBytes_length _ x)]
  simp

theorem writeToFileM_assoc (fns : List FunctionM) :
    writeToFileM fns
      = fileHeaderBytes ++
        (sectionHeaderBytes 1 functionSectionOffsetW (functionSectionSizeOf fns)
            fns.length kFunctionEntrySizeW ++
        (sectionHeaderBytes 2 (typeSectionOffsetOf fns) (typeSectionSizeOf fns) 0 0 ++
        (sectionHeaderBytes 3 (stringSectionOffsetOf fns) (stringSectionSizeOf fns)
            (stringList fns).length kStringEntrySizeW ++
        (entriesBlock fns ++ (funcDataBlock fns ++ (typeDataBlock fns ++
        (strEntriesBlock fns ++ strDataBlock fns))))))) := by
  unfold writeToFileM
  simp [List.append_assoc]

theorem writeToFileM_length (fns : List FunctionM) :
    (writeToFileM fns).length = fileSizeOf fns := by
  unfold writeToFileM
  simp only [List.length_append, fileHeaderBytes_length, sectionHeaderBytes_length,
    entriesBlock_length, strEntriesBlock_length]
  unfold fileSizeOf stringSectionOffsetOf typeSectionOffsetOf functionSectionOffsetW
    stringSectionSizeOf typeSectionSizeOf functionSectionSizeOf kFileHeaderSizeW
    kSectionHeaderSizeW kFunctionEntrySizeW kStringEntrySizeW funcDataBlock typeDataBlock
    strDataBlock
  omega

theorem functionSectionSizeOf_eq (fns : List FunctionM) :
    functionSectionSizeOf fns = fns.length * 54 + (funcDataBlock fns).length := rfl

theorem stringSectionSizeOf_eq (fns : List FunctionM) :
    stringSectionSizeOf fns = (stringList fns).length * 16 + (strDataBlock fns).length := rfl

theorem typeSectionSizeOf_eq (fns : List FunctionM) :
    typeSectionSizeOf fns = (typeDataBlock fns).length := rfl

theorem fileSizeOf_eq (fns : List FunctionM) :
    fileSizeOf fns = 92 + functionSectionSizeOf fns + typeSectionSizeOf fns
      + stringSectionSizeOf fns := by
  unfold fileSizeOf stringSectionOffsetOf typeSectionOffsetOf functionSectionOffsetW
    kFileHeaderSizeW kSectionHeaderSizeW
  omega

/-- The numeral form of the file decomposition. -/
theorem writeToFileM_assoc_num (fns : List FunctionM) :
    writeToFileM fns
      = fileHeaderBytes ++
        (sectionHeaderBytes 1 92 (functionSectionSizeOf fns) fns.length 54 ++
        (sectionHeaderBytes 2 (92 + functionSectionSizeOf fns) (typeSectionSizeOf fns) 0 0 ++
        (sectionHeaderBytes 3 (92 + functionSectionSizeOf fns + typeSectionSizeOf fns)
            (stringSectionSizeOf fns) (stringList fns).length 16 ++
        (entriesBlock fns ++ (funcDataBlock fns ++ (typeDataBlock fns ++
        (strEntriesBlock fns ++ strDataBlock fns))))))) := by
  rw [writeToFileM_assoc]
  have h1 : functionSectionOffsetW = 92 := rfl
  have h2 : kFunctionEntrySizeW = 54 := rfl
  have h3 : kStringEntrySizeW = 16 := rfl
  have h4 : typeSectionOffsetOf fns = 92 + functionSectionSizeOf fns := by
    unfold typeSectionOffsetOf functionSectionOffsetW kFileHeaderSizeW kSectionHeaderSizeW
    omega
  have h5 : stringSectionOffsetOf fns
      = 92 + functionSectionSizeOf fns + typeSectionSizeOf fns := by
    unfold stringSectionOffsetOf typeSectionOffsetOf functionSectionOffsetW
      kFileHeaderSizeW kSectionHeaderSizeW
    omega
  rw [h1, h2, h3, h4, h5]

theorem readSectionsM_step1 (file : List Nat) (count pos prevEnd sz n : Nat)
    (fS tS sS : SectionHeaderM)
    (hsh : readSectionHeaderM file pos = ⟨1, prevEnd, sz, n, 54⟩)
    (h1 : ¬ n * 54 > sz)
    (h3 : ¬ (2 ^ 64 - 1 - sz < prevEnd))
    (h6 : fS.offset = 0) :
    readSectionsM file (count + 1) pos prevEnd fS tS sS
      = readSectionsM file count (pos + 28) (prevEnd + sz)
          ⟨1, prevEnd, sz, n, 54⟩ tS sS := by
  simp only [readSectionsM]
  rw [hsh]
  simp [h6, kFunctionEntrySizeW, h1]
  intro hlt
  exact absurd hlt (by simpa using h3)

theorem readSectionsM_step2 (file : List Nat) (count pos prevEnd sz : Nat)
    (fS tS sS : SectionHeaderM)
    (hsh : readSectionHeaderM file pos = ⟨2, prevEnd, sz, 0, 0⟩)
    (h3 : ¬ (2 ^ 64 - 1 - sz < prevEnd))
    (h6 : tS.offset = 0) :
    readSectionsM file (count + 1) pos prevEnd fS tS sS
      = readSectionsM file count (pos + 28) (prevEnd + sz)
          fS ⟨2, prevEnd, sz, 0, 0⟩ sS := by
  simp only [readSectionsM]
  rw [hsh]
  simp [h6]
  intro hlt
  exact absurd hlt (by simpa using h3)

theorem readSectionsM_step3 (file : List Nat) (count pos prevEnd sz m : Nat)
    (fS tS sS : SectionHeaderM)
    (hsh : readSectionHeaderM file pos = ⟨3, prevEnd, sz, m, 16⟩)
    (h1 : ¬ m * 16 > sz)
    (h3 : ¬ (2 ^ 64 - 1 - sz < prevEnd))
    (h6 : sS.offset = 0) :
    readSectionsM file (count + 1) pos prevEnd fS tS sS
      = readSectionsM file count (pos + 28) (prevEnd + sz)
          fS tS ⟨3, prevEnd, sz, m, 16⟩ := by
  simp only [readSectionsM]
  rw [hsh]
  simp [h6, kStringEntrySizeW, h1]
  intro hlt
  exact absurd hlt (by simpa using h3)

/-- Parsing the file written for `fns` recovers the three section headers. -/
theorem readFromFile_writeToFile (fns : List FunctionM) (hwf : packageFileWF fns) :
    readFromFileM (writeToFileM fns)
      = Except.ok
          { file := writeToFileM fns
            functionSection := ⟨1, 92, functionSectionSizeOf fns, fns.length, 54⟩
            typeSection := ⟨2, 92 + functionSectionSizeOf fns, typeSectionSizeOf fns, 0, 0⟩
            stringSection := ⟨3, 92 + functionSectionSizeOf fns + typeSectionSizeOf fns,
              stringSectionSizeOf fns, (stringList fns).length, 16⟩ } := by
  obtain ⟨hn32, hm32, hfs32, _⟩ := hwf
  have hftotal := fileSizeOf_eq fns
  have hfsz : functionSectionSizeOf fns < 2 ^ 32 := by omega
  have htsz : typeSectionSizeOf fns < 2 ^ 32 := by omega
  have hssz : stringSectionSizeOf fns < 2 ^ 32 := by omega
  have hsplit := writeToFileM_assoc_num fns
  have hflen : (writeToFileM fns).length = fileSizeOf fns := writeToFileM_length fns
  obtain ⟨hmagic, hver, hws, hsc⟩ :=
    readFileHeader_fields (writeToFileM fns) _ hsplit
  -- the three section headers at positions 8, 36, 64
  have hsplit2 : writeToFileM fns
      = (fileHeaderBytes ++ sectionHeaderBytes 1 92 (functionSectionSizeOf fns) fns.length 54)
        ++ (sectionHeaderBytes 2 (92 + functionSectionSizeOf fns) (typeSectionSizeOf fns) 0 0 ++
        (sectionHeaderBytes 3 (92 + functionSectionSizeOf fns + typeSectionSizeOf fns)
            (stringSectionSizeOf fns) (stringList fns).length 16 ++
        (entriesBlock fns ++ (funcDataBlock fns ++ (typeDataBlock fns ++
        (strEntriesBlock fns ++ strDataBlock fns)))))) := by
    rw [hsplit]
    simp [List.append_assoc]
  have hsplit3 : writeToFileM fns
      = ((fileHeaderBytes ++ sectionHeaderBytes 1 92 (functionSectionSizeOf fns) fns.length 54)
        ++ sectionHeaderBytes 2 (92 + functionSectionSizeOf fns) (typeSectionSizeOf fns) 0 0)
        ++ (sectionHeaderBytes 3 (92 + functionSectionSizeOf fns + typeSectionSizeOf fns)
            (stringSectionSizeOf fns) (stringList fns).length 16 ++
        (entriesBlock fns ++ (funcDataBlock fns ++ (typeDataBlock fns ++
        (strEntriesBlock fns ++ strDataBlock fns))))) := by
    rw [hsplit]
    simp [List.append_assoc]
  have hS1read : readSectionHeaderM (writeToFileM fns) 8
      = ⟨1, 92, functionSectionSizeOf fns, fns.length, 54⟩ :=
    readSectionHeaderM_of_split (writeToFileM fns) fileHeaderBytes _ 8 1 92
      (functionSectionSizeOf fns) fns.length 54 hsplit fileHeaderBytes_length
      (by norm_num) (by norm_num) (by omega) (by omega) (by norm_num)
  have hS2read : readSectionHeaderM (writeToFileM fns) 36
      = ⟨2, 92 + functionSectionSizeOf fns, typeSectionSizeOf fns, 0, 0⟩ :=
    readSectionHeaderM_of_split (writeToFileM fns) _ _ 36 2
      (92 + functionSectionSizeOf fns) (typeSectionSizeOf fns) 0 0 hsplit2
      (by simp [fileHeaderBytes_length, sectionHeaderBytes_length])
      (by norm_num) (by omega) (by omega) (by norm_num) (by norm_num)
  have hS3read : readSectionHeaderM (writeToFileM fns) 64
      = ⟨3, 92 + functionSectionSizeOf fns + typeSectionSizeOf fns,
          stringSectionSizeOf fns, (stringList fns).length, 16⟩ :=
    readSectionHeaderM_of_split (writeToFileM fns) _ _ 64 3
      (92 + functionSectionSizeOf fns + typeSectionSizeOf fns) (stringSectionSizeOf fns)
      (stringList fns).length 16 hsplit3
      (by simp [fileHeaderBytes_length, sectionHeaderBytes_length])
      (by norm_num) (by omega) (by omega) (by omega) (by norm_num)
  -- the three loop iterations
  have hbound1 : ¬ (fns.length * 54 > functionSectionSizeOf fns) := by
    rw [functionSectionSizeOf_eq]
    omega
  have hbound3 : ¬ ((stringList fns).length * 16 > stringSectionSizeOf fns) := by
    rw [stringSectionSizeOf_eq]
    omega
  have hstep1 : readSectionsM (writeToFileM fns) 3 8 92 shZero shZero shZero
      = readSectionsM (writeToFileM fns) 2 36 (92 + functionSectionSizeOf fns)
          ⟨1, 92, functionSectionSizeOf fns, fns.length, 54⟩ shZero shZero := by
    have h := readSectionsM_step1 (writeToFileM fns) 2 8 92 (functionSectionSizeOf fns)
      fns.length shZero shZero shZero hS1read hbound1 (by omega) rfl
    simpa using h
  have hstep2 : readSectionsM (writeToFileM fns) 2 36 (92 + functionSectionSizeOf fns)
          ⟨1, 92, functionSectionSizeOf fns, fns.length, 54⟩ shZero shZero
      = readSectionsM (writeToFileM fns) 1 64
          (92 + functionSectionSizeOf fns + typeSectionSizeOf fns)
          ⟨1, 92, functionSectionSizeOf fns, fns.length, 54⟩
          ⟨2, 92 + functionSectionSizeOf fns, typeSectionSizeOf fns, 0, 0⟩ shZero := by
    have h := readSectionsM_step2 (writeToFileM fns) 1 36 (92 + functionSectionSizeOf fns)
      (typeSectionSizeOf fns)
      ⟨1, 92, functionSectionSizeOf fns, fns.length, 54⟩ shZero shZero hS2read
      (by omega) rfl
    simpa using h
  have hstep3 : readSectionsM (writeToFileM fns) 1 64
          (92 + functionSectionSizeOf fns + typeSectionSizeOf fns)
          ⟨1, 92, functionSectionSizeOf fns, fns.length, 54⟩
          ⟨2, 92 + functionSectionSizeOf fns, typeSectionSizeOf fns, 0, 0⟩ shZero
      = readSectionsM (writeToFileM fns) 0 92
          (92 + functionSectionSizeOf fns + typeSectionSizeOf fns + stringSectionSizeOf fns)
          ⟨1, 92, functionSectionSizeOf fns, fns.length, 54⟩
          ⟨2, 92 + functionSectionSizeOf fns, typeSectionSizeOf fns, 0, 0⟩
          ⟨3, 92 + functionSectionSizeOf fns + typeSectionSizeOf fns,
            stringSectionSizeOf fns, (stringList fns).length, 16⟩ := by
    have h := readSectionsM_step3 (writeToFileM fns) 0 64
      (92 + functionSectionSizeOf fns + typeSectionSizeOf fns) (stringSectionSizeOf fns)
      (stringList fns).length
      ⟨1, 92, functionSectionSizeOf fns, fns.length, 54⟩
      ⟨2, 92 + functionSectionSizeOf fns, typeSectionSizeOf fns, 0, 0⟩ shZero hS3read
      hbound3 (by omega) rfl
    simpa using h
  have hstep4 : readSectionsM (writeToFileM fns) 0 92
          (92 + functionSectionSizeOf fns + typeSectionSizeOf fns + stringSectionSizeOf fns)
          ⟨1, 92, functionSectionSizeOf fns, fns.length, 54⟩
          ⟨2, 92 + functionSectionSizeOf fns, typeSectionSizeOf fns, 0, 0⟩
          ⟨3, 92 + functionSectionSizeOf fns + typeSectionSizeOf fns,
            stringSectionSizeOf fns, (stringList fns).length, 16⟩
      = Except.ok (⟨1, 92, functionSectionSizeOf fns, fns.length, 54⟩,
          ⟨2, 92 + functionSectionSizeOf fns, typeSectionSizeOf fns, 0, 0⟩,
          ⟨3, 92 + functionSectionSizeOf fns + typeSectionSizeOf fns,
            stringSectionSizeOf fns, (stringList fns).length, 16⟩,
          92 + functionSectionSizeOf fns + typeSectionSizeOf fns + stringSectionSizeOf fns) := by
    simp only [readSectionsM]
  -- assemble readFromFileM
  unfold readFromFileM
  rw [if_neg (by rw [hflen]; unfold kFileHeaderSizeW; omega)]
  rw [hmagic, hver, hws, hsc]
  rw [if_neg (by simp), if_neg (by simp), if_neg (by simp)]
  rw [if_neg (by
    rw [hflen]
    unfold kFileHeaderSizeW kSectionHeaderSizeW
    omega)]
  have harg : kFileHeaderSizeW + 3 * kSectionHeaderSizeW = 92 := rfl
  rw [show kFileHeaderSizeW = 8 from rfl] at harg ⊢
  rw [harg]
  rw [hstep1, hstep2, hstep3, hstep4]
  have hend : 92 + functionSectionSizeOf fns + typeSectionSizeOf fns + stringSectionSizeOf fns
      = (writeToFileM fns).length := by rw [hflen, hftotal]
  simp [hend]

/-- The parsed package produced for the written file of `fns`. -/
def packageOf (fns : List FunctionM) : PackageM :=
  { file := writeToFileM fns
    functionSection := ⟨1, 92, functionSectionSizeOf fns, fns.length, 54⟩
    typeSection := ⟨2, 92 + functionSectionSizeOf fns, typeSectionSizeOf fns, 0, 0⟩
    stringSection := ⟨3, 92 + functionSectionSizeOf fns + typeSectionSizeOf fns,
      stringSectionSizeOf fns, (stringList fns).length, 16⟩ }

theorem getD_mem_gen {α : Type} (l : List α) (d : α) :
    ∀ i, i < l.length → l.getD i d ∈ l := by
  induction l with
  | nil => intro i h; simp at h
  | cons x xs ih =>
    intro i h
    cases i with
    | zero => simp [List.getD]
    | succ m =>
      rw [List.getD_cons_succ]
      exact List.mem_cons_of_mem x (ih m (by simpa using h))

theorem sliceL_at (pre b rest : List Nat) :
    sliceL (pre ++ (b ++ rest)) pre.length b.length = b := by
  have h := sliceL_skip pre (b ++ rest) pre.length b.length le_rfl
  rw [Nat.sub_self] at h
  rw [h]
  exact sliceL_start b rest

/-- `functionByIndexLocked` on the parsed package recovers the name and
the instruction bytes of function `i`. -/
theorem functionByIndex_roundtrip (fns : List FunctionM) (hwf : packageFileWF fns)
    (i : Nat) (hi : i < fns.length) :
    ∃ g, functionByIndexM (packageOf fns) i = Except.ok g ∧
      g.name = (fns.getD i default).name ∧ g.insts = (fns.getD i default).insts := by
  obtain ⟨hn32, hm32, hfs32, hperf⟩ := hwf
  have hfmem : fns.getD i default ∈ fns := getD_mem_gen fns default i hi
  obtain ⟨hp32, hr32, hin32, hsc32, hfr16⟩ := hperf _ hfmem
  have hftotal := fileSizeOf_eq fns
  have hFSeq := functionSectionSizeOf_eq fns
  have hTSeq := typeSectionSizeOf_eq fns
  have hSSeq := stringSectionSizeOf_eq fns
  have hfsz : functionSectionSizeOf fns < 2 ^ 32 := by omega
  have htsz : typeSectionSizeOf fns < 2 ^ 32 := by omega
  have hssz : stringSectionSizeOf fns < 2 ^ 32 := by omega
  -- type blob bounds
  have hTle0 := flatten_prefix_le (fns.map typeBytesOf) i (by simpa using hi)
  rw [map_take_list, map_getD_list typeBytesOf fns i hi] at hTle0
  have htb_len : (typeBytesOf (fns.getD i default)).length
      = (fns.getD i default).paramTypes.length + (fns.getD i default).returnTypes.length := by
    simp [typeBytesOf]
  have hTle : paramTypeOffsetOf fns i + (fns.getD i default).paramTypes.length
        + (fns.getD i default).returnTypes.length ≤ typeSectionSizeOf fns := by
    unfold paramTypeOffsetOf typeSectionSizeOf
    omega
  -- function data blob bounds
  have hDle0 := flatten_prefix_le (fns.map funcDataOf) i (by simpa using hi)
  rw [map_take_list, map_getD_list funcDataOf fns i hi] at hDle0
  have hfd_len : (funcDataOf (fns.getD i default)).length
      = (fns.getD i default).insts.length + (fns.getD i default).spData.length := by
    simp [funcDataOf]
  have hDle : instOffsetOf fns i + (fns.getD i default).insts.length
        + (fns.getD i default).spData.length ≤ (funcDataBlock fns).length := by
    unfold instOffsetOf funcDataBlock
    omega
  have hspOff : spOffsetOf fns i
      = instOffsetOf fns i + (fns.getD i default).insts.length := rfl
  have hspSize : spBytesPerEntry (fns.getD i default).spFrameSize
        * spCountOf (fns.getD i default) ≤ (fns.getD i default).spData.length := by
    unfold spCountOf
    rw [Nat.mul_comm]
    exact Nat.div_mul_le_self _ _
  -- the function entry of index i inside the file
  have hEB0 := flatten_split ((List.range fns.length).map (functionEntryBytes fns)) i
    (by simpa using hi)
  rw [map_range_take (functionEntryBytes fns) fns.length i hi.le,
      map_range_getD (functionEntryBytes fns) fns.length i hi] at hEB0
  have hEB : entriesBlock fns
      = ((List.range i).map (functionEntryBytes fns)).flatten ++
        (functionEntryBytes fns i ++
          ((((List.range fns.length).map (functionEntryBytes fns)).drop (i + 1)).flatten)) := by
    unfold entriesBlock
    exact hEB0
  have hpreE : (((List.range i).map (functionEntryBytes fns)).flatten).length = i * 54 := by
    rw [flatten_length_const (functionEntryBytes fns) 54 (List.range i)
      (fun x _ => functionEntryBytes_length fns x)]
    simp
  have hfileE : writeToFileM fns
      = (fileHeaderBytes ++
          sectionHeaderBytes 1 92 (functionSectionSizeOf fns) fns.length 54 ++
          sectionHeaderBytes 2 (92 + functionSectionSizeOf fns) (typeSectionSizeOf fns) 0 0 ++
          sectionHeaderBytes 3 (92 + functionSectionSizeOf fns + typeSectionSizeOf fns)
            (stringSectionSizeOf fns) (stringList fns).length 16 ++
          ((List.range i).map (functionEntryBytes fns)).flatten) ++
        (functionEntryBytes fns i ++
          (((((List.range fns.length).map (functionEntryBytes fns)).drop (i + 1)).flatten) ++
            (funcDataBlock fns ++ (typeDataBlock fns ++
              (strEntriesBlock fns ++ strDataBlock fns))))) := by
    rw [writeToFileM_assoc_num fns, hEB]
    simp [List.append_assoc]
  have hAposE : (fileHeaderBytes ++
          sectionHeaderBytes 1 92 (functionSectionSizeOf fns) fns.length 54 ++
          sectionHeaderBytes 2 (92 + functionSectionSizeOf fns) (typeSectionSizeOf fns) 0 0 ++
          sectionHeaderBytes 3 (92 + functionSectionSizeOf fns + typeSectionSizeOf fns)
            (stringSectionSizeOf fns) (stringList fns).length 16 ++
          ((List.range i).map (functionEntryBytes fns)).flatten).length = 92 + i * 54 := by
    simp only [List.length_append, fileHeaderBytes_length, sectionHeaderBytes_length, hpreE]
  have hkm : indexOfName (fns.getD i default).name (stringList fns) < (stringList fns).length :=
    indexOfName_lt _ _ (name_mem_stringList fns _ hfmem)
  obtain ⟨e1, e2, e3, e4, e5, e6, e7, e8, e9, e10⟩ :=
    functionEntry_reads (writeToFileM fns) _ _ fns i (92 + i * 54) hfileE hAposE
      (by omega) (by omega) hp32 (by unfold returnTypeOffsetOf; omega) hr32
      (by omega) hin32 (by rw [hspOff]; omega) hsc32 hfr16
  -- the string entry of the name index inside the file
  have hSEB0 := flatten_split
    ((List.range (stringList fns).length).map (stringEntryBytes (stringList fns)))
    (indexOfName (fns.getD i default).name (stringList fns)) (by simpa using hkm)
  rw [map_range_take (stringEntryBytes (stringList fns)) (stringList fns).length _ hkm.le,
      map_range_getD (stringEntryBytes (stringList fns)) (stringList fns).length _ hkm] at hSEB0
  have hSEB : strEntriesBlock fns
      = ((List.range (indexOfName (fns.getD i default).name (stringList fns))).map
          (stringEntryBytes (stringList fns))).flatten ++
        (stringEntryBytes (stringList fns)
            (indexOfName (fns.getD i default).name (stringList fns)) ++
          ((((List.range (stringList fns).length).map (stringEntryBytes (stringList fns))).drop
              (indexOfName (fns.getD i default).name (stringList fns) + 1)).flatten)) := by
    unfold strEntriesBlock
    exact hSEB0
  have hpreSE : (((List.range (indexOfName (fns.getD i default).name (stringList fns))).map
        (stringEntryBytes (stringList fns))).flatten).length
      = indexOfName (fns.getD i default).name (stringList fns) * 16 := by
    rw [flatten_length_const (stringEntryBytes (stringList fns)) 16 _
      (fun x _ => stringEntryBytes_length _ x)]
    simp
  have hfileSE : writeToFileM fns
      = (fileHeaderBytes ++
          sectionHeaderBytes 1 92 (functionSectionSizeOf fns) fns.length 54 ++
          sectionHeaderBytes 2 (92 + functionSectionSizeOf fns) (typeSectionSizeOf fns) 0 0 ++
          sectionHeaderBytes 3 (92 + functionSectionSizeOf fns + typeSectionSizeOf fns)
            (stringSectionSizeOf fns) (stringList fns).length 16 ++
          entriesBlock fns ++ funcDataBlock fns ++ typeDataBlock fns ++
          ((List.range (indexOfName (fns.getD i default).name (stringList fns))).map
            (stringEntryBytes (stringList fns))).flatten) ++
        (stringEntryBytes (stringList fns)
            (indexOfName (fns.getD i default).name (stringList fns)) ++
          (((((List.range (stringList fns).length).map (stringEntryBytes (stringList fns))).drop
              (indexOfName (fns.getD i default).name (stringList fns) + 1)).flatten) ++
            strDataBlock fns)) := by
    rw [writeToFileM_assoc_num fns, hSEB]
    simp [List.append_assoc]
  have hAposSE : (fileHeaderBytes ++
          sectionHeaderBytes 1 92 (functionSectionSizeOf fns) fns.length 54 ++
          sectionHeaderBytes 2 (92 + functionSectionSizeOf fns) (typeSectionSizeOf fns) 0 0 ++
          sectionHeaderBytes 3 (92 + functionSectionSizeOf fns + typeSectionSizeOf fns)
            (stringSectionSizeOf fns) (stringList fns).length 16 ++
          entriesBlock fns ++ funcDataBlock fns ++ typeDataBlock fns ++
          ((List.range (indexOfName (fns.getD i default).name (stringList fns))).map
            (stringEntryBytes (stringList fns))).flatten).length
      = 92 + functionSectionSizeOf fns + typeSectionSizeOf fns
          + indexOfName (fns.getD i default).name (stringList fns) * 16 := by
    simp only [List.length_append, fileHeaderBytes_length, sectionHeaderBytes_length,
      entriesBlock_length, hpreSE]
    omega
  have hoffsz := flatten_prefix_le (stringList fns)
    (indexOfName (fns.getD i default).name (stringList fns)) hkm
  have hSDlen : (strDataBlock fns).length = ((stringList fns).flatten).length := rfl
  obtain ⟨s1, s2⟩ := stringEntry_reads (writeToFileM fns) _ _ (stringList fns)
    (indexOfName (fns.getD i default).name (stringList fns))
    (92 + functionSectionSizeOf fns + typeSectionSizeOf fns
      + indexOfName (fns.getD i default).name (stringList fns) * 16)
    hfileSE hAposSE (by omega) (by omega)
  have hname_getD : (stringList fns).getD
      (indexOfName (fns.getD i default).name (stringList fns)) []
      = (fns.getD i default).name :=
    indexOfName_getD _ _ (name_mem_stringList fns _ hfmem)
  -- the string data blob inside the file
  have hfileSD : writeToFileM fns
      = (fileHeaderBytes ++
          sectionHeaderBytes 1 92 (functionSectionSizeOf fns) fns.length 54 ++
          sectionHeaderBytes 2 (92 + functionSectionSizeOf fns) (typeSectionSizeOf fns) 0 0 ++
          sectionHeaderBytes 3 (92 + functionSectionSizeOf fns + typeSectionSizeOf fns)
            (stringSectionSizeOf fns) (stringList fns).length 16 ++
          entriesBlock fns ++ funcDataBlock fns ++ typeDataBlock fns ++ strEntriesBlock fns) ++
        (strDataBlock fns ++ []) := by
    rw [writeToFileM_assoc_num fns]
    simp [List.append_assoc]
  have hAposSD : (fileHeaderBytes ++
          sectionHeaderBytes 1 92 (functionSectionSizeOf fns) fns.length 54 ++
          sectionHeaderBytes 2 (92 + functionSectionSizeOf fns) (typeSectionSizeOf fns) 0 0 ++
          sectionHeaderBytes 3 (92 + functionSectionSizeOf fns + typeSectionSizeOf fns)
            (stringSectionSizeOf fns) (stringList fns).length 16 ++
          entriesBlock fns ++ funcDataBlock fns ++ typeDataBlock fns ++
          strEntriesBlock fns).length
      = 92 + functionSectionSizeOf fns + typeSectionSizeOf fns
          + (stringList fns).length * 16 := by
    simp only [List.length_append, fileHeaderBytes_length, sectionHeaderBytes_length,
      entriesBlock_length, strEntriesBlock_length]
    omega
  -- projections of the parsed package
  have hq1 : (packageOf fns).file = writeToFileM fns := rfl
  have hq2 : (packageOf fns).functionSection.offset = 92 := rfl
  have hq3 : (packageOf fns).functionSection.entrySize = 54 := rfl
  have hq4 : (packageOf fns).functionSection.entryCount = fns.length := rfl
  have hq5 : (packageOf fns).functionSection.size = functionSectionSizeOf fns := rfl
  have hq6 : (packageOf fns).typeSection.offset = 92 + functionSectionSizeOf fns := rfl
  have hq7 : (packageOf fns).typeSection.entryCount = 0 := rfl
  have hq8 : (packageOf fns).typeSection.entrySize = 0 := rfl
  have hq9 : (packageOf fns).typeSection.size = typeSectionSizeOf fns := rfl
  have hq10 : (packageOf fns).stringSection.offset
      = 92 + functionSectionSizeOf fns + typeSectionSizeOf fns := rfl
  have hq11 : (packageOf fns).stringSection.entrySize = 16 := rfl
  have hq12 : (packageOf fns).stringSection.entryCount = (stringList fns).length := rfl
  have hq13 : (packageOf fns).stringSection.size = stringSectionSizeOf fns := rfl
  -- the name lookup succeeds and returns the recorded name
  have hstrchk : ¬ (92 + functionSectionSizeOf fns + typeSectionSizeOf fns
        + (stringList fns).length * 16
        + (((stringList fns).take
            (indexOfName (fns.getD i default).name (stringList fns))).flatten).length
        + ((stringList fns).getD
            (indexOfName (fns.getD i default).name (stringList fns)) []).length
      > 92 + functionSectionSizeOf fns + typeSectionSizeOf fns + stringSectionSizeOf fns) := by
    omega
  have hslSD := sliceL_inside (writeToFileM fns) _ (strDataBlock fns) []
    (92 + functionSectionSizeOf fns + typeSectionSizeOf fns + (stringList fns).length * 16)
    ((((stringList fns).take
        (indexOfName (fns.getD i default).name (stringList fns))).flatten).length)
    (((stringList fns).getD
        (indexOfName (fns.getD i default).name (stringList fns)) []).length)
    hfileSD hAposSD (by omega)
  have hstr : stringByIndexM (packageOf fns)
      (indexOfName (fns.getD i default).name (stringList fns))
      = Except.ok (fns.getD i default).name := by
    simp only [stringByIndexM, hq1, hq10, hq11, hq12, hq13]
    rw [s1, s2]
    rw [if_neg hstrchk]
    rw [hslSD]
    unfold strDataBlock
    rw [flatten_split (stringList fns)
      (indexOfName (fns.getD i default).name (stringList fns)) hkm]
    rw [sliceL_at]
    rw [hname_getD]
  -- type bytes inside the file
  have hfileT : writeToFileM fns
      = (fileHeaderBytes ++
          sectionHeaderBytes 1 92 (functionSectionSizeOf fns) fns.length 54 ++
          sectionHeaderBytes 2 (92 + functionSectionSizeOf fns) (typeSectionSizeOf fns) 0 0 ++
          sectionHeaderBytes 3 (92 + functionSectionSizeOf fns + typeSectionSizeOf fns)
            (stringSectionSizeOf fns) (stringList fns).length 16 ++
          entriesBlock fns ++ funcDataBlock fns) ++
        (typeDataBlock fns ++ (strEntriesBlock fns ++ strDataBlock fns)) := by
    rw [writeToFileM_assoc_num fns]
    simp [List.append_assoc]
  have hAposT : (fileHeaderBytes ++
          sectionHeaderBytes 1 92 (functionSectionSizeOf fns) fns.length 54 ++
          sectionHeaderBytes 2 (92 + functionSectionSizeOf fns) (typeSectionSizeOf fns) 0 0 ++
          sectionHeaderBytes 3 (92 + functionSectionSizeOf fns + typeSectionSizeOf fns)
            (stringSectionSizeOf fns) (stringList fns).length 16 ++
          entriesBlock fns ++ funcDataBlock fns).length
      = 92 + functionSectionSizeOf fns := by
    simp only [List.length_append, fileHeaderBytes_length, sectionHeaderBytes_length,
      entriesBlock_length]
    omega
  have htread : ∀ q, q < typeSectionSizeOf fns →
      readLE 1 (writeToFileM fns) (92 + functionSectionSizeOf fns + q)
          = (typeDataBlock fns).getD q 0 ∧
        ∃ t, (typeDataBlock fns).getD q 0 = typeKindByte t := by
    intro q hq
    have hq2 : q < (typeDataBlock fns).length := by
      have h := hTSeq
      omega
    constructor
    · have h := readLE_inside (writeToFileM fns) _ (typeDataBlock fns) _
        (92 + functionSectionSizeOf fns) 1 q hfileT hAposT (by omega)
      rw [h, readLE_one]
    · exact typeData_byte_is_kind fns _ (getD_mem_of_lt _ q hq2)
  obtain ⟨pts, hpts⟩ := readTypeListM_ok (writeToFileM fns)
    (92 + functionSectionSizeOf fns + typeSectionSizeOf fns)
    (fns.getD i default).paramTypes.length
    (92 + functionSectionSizeOf fns + paramTypeOffsetOf fns i)
    (fun j hj => by
      have hq : paramTypeOffsetOf fns i + j < typeSectionSizeOf fns := by omega
      have h := htread (paramTypeOffsetOf fns i + j) hq
      constructor
      · omega
      · obtain ⟨t, ht⟩ := h.2
        refine ⟨t, ?_⟩
        have harg : 92 + functionSectionSizeOf fns + paramTypeOffsetOf fns i + j
            = 92 + functionSectionSizeOf fns + (paramTypeOffsetOf fns i + j) := by omega
        rw [harg, h.1]
        exact ht)
  obtain ⟨rts, hrts⟩ := readTypeListM_ok (writeToFileM fns)
    (92 + functionSectionSizeOf fns + typeSectionSizeOf fns)
    (fns.getD i default).returnTypes.length
    (92 + functionSectionSizeOf fns + returnTypeOffsetOf fns i)
    (fun j hj => by
      have hro : returnTypeOffsetOf fns i
          = paramTypeOffsetOf fns i + (fns.getD i default).paramTypes.length := rfl
      have hq : returnTypeOffsetOf fns i + j < typeSectionSizeOf fns := by omega
      have h := htread (returnTypeOffsetOf fns i + j) hq
      constructor
      · omega
      · obtain ⟨t, ht⟩ := h.2
        refine ⟨t, ?_⟩
        have harg : 92 + functionSectionSizeOf fns + returnTypeOffsetOf fns i + j
            = 92 + functionSectionSizeOf fns + (returnTypeOffsetOf fns i + j) := by omega
        rw [harg, h.1]
        exact ht)
  -- the instruction bytes inside the file
  have hDsplit := flatten_split (fns.map funcDataOf) i (by simpa using hi)
  rw [map_take_list, map_getD_list funcDataOf fns i hi] at hDsplit
  have hfileD : writeToFileM fns
      = (fileHeaderBytes ++
          sectionHeaderBytes 1 92 (functionSectionSizeOf fns) fns.length 54 ++
          sectionHeaderBytes 2 (92 + functionSectionSizeOf fns) (typeSectionSizeOf fns) 0 0 ++
          sectionHeaderBytes 3 (92 + functionSectionSizeOf fns + typeSectionSizeOf fns)
            (stringSectionSizeOf fns) (stringList fns).length 16 ++
          entriesBlock fns) ++
        (funcDataBlock fns ++ (typeDataBlock fns ++
          (strEntriesBlock fns ++ strDataBlock fns))) := by
    rw [writeToFileM_assoc_num fns]
    simp [List.append_assoc]
  have hAposD : (fileHeaderBytes ++
          sectionHeaderBytes 1 92 (functionSectionSizeOf fns) fns.length 54 ++
          sectionHeaderBytes 2 (92 + functionSectionSizeOf fns) (typeSectionSizeOf fns) 0 0 ++
          sectionHeaderBytes 3 (92 + functionSectionSizeOf fns + typeSectionSizeOf fns)
            (stringSectionSizeOf fns) (stringList fns).length 16 ++
          entriesBlock fns).length
      = 92 + fns.length * 54 := by
    simp only [List.length_append, fileHeaderBytes_length, sectionHeaderBytes_length,
      entriesBlock_length]
  have hinst_slice : sliceL (writeToFileM fns)
        (92 + fns.length * 54 + instOffsetOf fns i) (fns.getD i default).insts.length
      = (fns.getD i default).insts := by
    have h := sliceL_inside (writeToFileM fns) _ (funcDataBlock fns) _
      (92 + fns.length * 54) (instOffsetOf fns i) (fns.getD i default).insts.length
      hfileD hAposD (by omega)
    rw [h]
    unfold funcDataBlock instOffsetOf
    rw [hDsplit]
    have hre : ((fns.take i).map funcDataOf).flatten ++
          (funcDataOf (fns.getD i default) ++
            (((fns.map funcDataOf).drop (i + 1)).flatten))
        = ((fns.take i).map funcDataOf).flatten ++
          ((fns.getD i default).insts ++
            ((fns.getD i default).spData ++ (((fns.map funcDataOf).drop (i + 1)).flatten))) := by
      simp [funcDataOf, List.append_assoc]
    rw [hre]
    exact sliceL_at _ _ _
  -- bounds checks in functionByIndexM
  have hchk1 : ¬ (92 + fns.length * 54 + instOffsetOf fns i
        + (fns.getD i default).insts.length > 92 + functionSectionSizeOf fns) := by
    omega
  have hchk2 : ¬ (92 + fns.length * 54 + spOffsetOf fns i
        + spBytesPerEntry (fns.getD i default).spFrameSize * spCountOf (fns.getD i default)
      > 92 + functionSectionSizeOf fns) := by
    omega
  -- assemble
  have hmain : functionByIndexM (packageOf fns) i
      = Except.ok
          ⟨(fns.getD i default).name, pts, rts, (fns.getD i default).insts,
            (fns.getD i default).spFrameSize,
            sliceL (writeToFileM fns) (92 + fns.length * 54 + spOffsetOf fns i)
              (spBytesPerEntry (fns.getD i default).spFrameSize
                * spCountOf (fns.getD i default))⟩ := by
    simp only [functionByIndexM, hq1, hq2, hq3, hq4, hq5, hq6, hq7, hq8, hq9,
      Nat.mul_zero, Nat.add_zero]
    rw [e1, e2, e3, e4, e5, e6, e7, e8, e9, e10]
    rw [hstr]
    simp only []
    rw [hpts]
    simp only []
    rw [hrts]
    simp only []
    rw [if_neg hchk1, if_neg hchk2]
    rw [hinst_slice]
  exact ⟨_, hmain, rfl, rfl⟩

/-- C3: for every materialized package (under the writer's narrow-cast
bounds), writing it with `Package::writeToFile` and reading the result
back with `Package::readFromFile` succeeds and yields a package with the
same function count, and for every index `functionByIndexLocked` returns
a function with the same name and byte-identical instructions. -/
theorem package_file_roundtrip (fns : List FunctionM) (hwf : packageFileWF fns) :
    ∃ p, readFromFileM (writeToFileM fns) = Except.ok p ∧
      p.functionSection.entryCount = fns.length ∧
      ∀ i, i < fns.length → ∃ g, functionByIndexM p i = Except.ok g ∧
        g.name = (fns.getD i default).name ∧ g.insts = (fns.getD i default).insts := by
  refine ⟨packageOf fns, ?_, rfl, ?_⟩
  · exact readFromFile_writeToFile fns hwf
  · intro i hi
    exact functionByIndex_roundtrip fns hwf i hi

/-- Witness: the round-trip theorem applied to a one-function package
(name byte 97, one RET instruction, no types, no safepoints). -/
theorem package_file_roundtrip_witness :
    packageFileWF [⟨[97], [], [], [3], 0, []⟩] ∧
      ∃ p, readFromFileM (writeToFileM [⟨[97], [], [], [3], 0, []⟩]) = Except.ok p ∧
        p.functionSection.entryCount = [(⟨[97], [], [], [3], 0, []⟩ : FunctionM)].length ∧
        ∀ i, i < [(⟨[97], [], [], [3], 0, []⟩ : FunctionM)].length →
          ∃ g, functionByIndexM p i = Except.ok g ∧
            g.name = ([(⟨[97], [], [], [3], 0, []⟩ : FunctionM)].getD i default).name ∧
            g.insts = ([(⟨[97], [], [], [3], 0, []⟩ : FunctionM)].getD i default).insts :=
  ⟨by unfold packageFileWF; decide,
    package_file_roundtrip [⟨[97], [], [], [3], 0, []⟩] (by unfold packageFileWF; decide)⟩

end CodeSwitch
